import Mathlib

/-!
CareerQuest: the match scorer of `js/app.js`

A shallow embedding of `calculateMatches` from the two variants of the job
matcher, `src/a/js/app.js` (variant A, weighted, top 10) and
`src/website/js/app.js` (variant B, unweighted, top 5).

Conventions of the embedding.

* A JavaScript number is given as the rational it denotes (`ℚ`), and
  `Math.round` yields an integer (`ℤ`). The scorer is embedded twice. The
  definitions whose name ends in `64` round every difference, product, sum
  and quotient to the nearest IEEE-754 double (`toDouble`, ties to even), as
  the engine does; the weights are the doubles nearest the decimals of the
  table. Numbers beyond the largest finite double are not modelled. The
  definitions without the suffix compute in exact arithmetic; they are the
  idealisation the specification's formula speaks of, and the two agree where
  the theorems below say so.
* An object is the list of its own properties in enumeration order, so
  `for (const field in answers)` is a left fold over that list and
  `obj[field] !== undefined` is a successful lookup.
* The module-level variables `currentQuestionIndex`, `answers`, `jobs` and
  `matchedJobs` are the fields of an explicit `State`; a function that assigns
  to them is a function `State → State`.
* `Array.prototype.sort` with a consistent comparator is a stable sort
  (ECMAScript 2019); it is embedded as insertion sort.
* The `questions` list is not part of `app.js`; it is a parameter. What a
  handler reads from the page (the slider, the checked radio button) is a
  parameter of the handler, and what `displayCurrentQuestion` writes to the
  page is its result.
-/

namespace CareerQuest

/-! ## Data model -/

/-- The `answers` object: one entry per answered question, keyed by the
question's `field`; the value is what `parseInt` produced. -/
abbrev Answers := List (String × Int)

/-- A job record of the catalog (`jobs.json`). `attrs` holds the properties
whose value is a number (`id`, the scoring attributes, ...), `display` the
textual ones (`title`, `company`, ...), which the scorer only copies. -/
structure Job where
  display : List (String × String)
  attrs : List (String × ℚ)
deriving DecidableEq

/-- The lookup `job[field]` at a numeric property; `none` is `undefined`. -/
def Job.get (job : Job) (field : String) : Option ℚ :=
  job.attrs.lookup field

/-- The object `{ ...job, matchScore: finalScore }`. -/
structure ScoredJob where
  job : Job
  matchScore : Int
deriving DecidableEq

/-- Property lookup on a scored job: `matchScore` is the attached score (it
overrides a `matchScore` property of the source record), every other
property is the one spread from the source record. -/
def ScoredJob.get (sj : ScoredJob) (field : String) : Option ℚ :=
  if field = "matchScore" then some (sj.matchScore : ℚ) else sj.job.get field

/-- The module-level state of `app.js`. -/
structure State where
  currentQuestionIndex : Int
  answers : Answers
  jobs : List Job
  matchedJobs : List ScoredJob

/-! ## Arithmetic helpers -/

/-- The JavaScript `Math.round`: the nearest integer, a tie going up. -/
def mathRound (x : ℚ) : Int := ⌊x + 1 / 2⌋

/-- The `factorScore` of one field:
`100 - Math.abs(jobValue - userValue) * 10`. -/
def factorScore (jobValue : ℚ) (userValue : Int) : ℚ :=
  100 - |jobValue - (userValue : ℚ)| * 10

/-! ## Variant A (`src/a/js/app.js`) -/

/-- The `weights` literal of variant A. -/
def weights : List (String × ℚ) :=
  [("teamwork_preference", 8 / 10),
   ("learning_opportunity", 1),
   ("experience_required", 1),
   ("work_environment", 1),
   ("stress_level", 8 / 10),
   ("creativity_required", 8 / 10),
   ("company_size", 6 / 10),
   ("remote_preference", 9 / 10),
   ("career_growth", 8 / 10),
   ("project_type", 7 / 10)]

/-- The expression `table[field] || 1.0`: the table entry, and `1.0` when the
entry is missing or falsy (zero). -/
def weightIn (table : List (String × ℚ)) (field : String) : ℚ :=
  match table.lookup field with
  | some w => if w = 0 then 1 else w
  | none => 1

/-- The body of the `for (const field in answers)` loop of variant A, on the
accumulators `(weightedScore, totalWeight)`. -/
def stepA (table : List (String × ℚ)) (job : Job) (acc : ℚ × ℚ)
    (entry : String × Int) : ℚ × ℚ :=
  match job.get entry.1 with
  | none => acc
  | some jobValue =>
    (acc.1 + factorScore jobValue entry.2 * weightIn table entry.1,
     acc.2 + weightIn table entry.1)

/-- The accumulators `(weightedScore, totalWeight)` after the loop. -/
def loopA (table : List (String × ℚ)) (answers : Answers) (job : Job) : ℚ × ℚ :=
  answers.foldl (stepA table job) (0, 0)

/-- The `finalScore` of variant A for a weight table:
`totalWeight > 0 ? Math.round(weightedScore / totalWeight) : 0`. -/
def finalScoreWith (table : List (String × ℚ)) (answers : Answers) (job : Job) : Int :=
  let acc := loopA table answers job
  if 0 < acc.2 then mathRound (acc.1 / acc.2) else 0

/-- The `finalScore` of variant A, with its hard-coded `weights`. -/
def finalScoreA (answers : Answers) (job : Job) : Int :=
  finalScoreWith weights answers job

/-! ## Variant B (`src/website/js/app.js`) -/

/-- The loop body of variant B, on `(matchScore, totalFactors)`. -/
def stepB (job : Job) (acc : ℚ × Nat) (entry : String × Int) : ℚ × Nat :=
  match job.get entry.1 with
  | none => acc
  | some jobValue => (acc.1 + factorScore jobValue entry.2, acc.2 + 1)

/-- The accumulators `(matchScore, totalFactors)` after the loop. -/
def loopB (answers : Answers) (job : Job) : ℚ × Nat :=
  answers.foldl (stepB job) (0, 0)

/-- The `finalScore` of variant B:
`totalFactors > 0 ? Math.round(matchScore / totalFactors) : 0`. -/
def finalScoreB (answers : Answers) (job : Job) : Int :=
  let acc := loopB answers job
  if 0 < acc.2 then mathRound (acc.1 / (acc.2 : ℚ)) else 0

/-! ## Sorting, truncation and `calculateMatches` -/

/-- The callback of `jobs.map` in variant A: the copy of the job with its
`matchScore`. -/
def scoreJobA (answers : Answers) (job : Job) : ScoredJob :=
  { job := job, matchScore := finalScoreA answers job }

/-- The callback of `jobs.map` in variant B. -/
def scoreJobB (answers : Answers) (job : Job) : ScoredJob :=
  { job := job, matchScore := finalScoreB answers job }

/-- The order the comparator `(a, b) => b.matchScore - a.matchScore` asks
for: `a` may stand before `b` when its score is not smaller. -/
def scoreGe (a b : ScoredJob) : Prop := b.matchScore ≤ a.matchScore

instance : DecidableRel scoreGe := fun a b => Int.decLe b.matchScore a.matchScore

instance : IsTotal ScoredJob scoreGe := ⟨fun a b => le_total b.matchScore a.matchScore⟩

instance : IsTrans ScoredJob scoreGe := ⟨fun _ _ _ hab hbc => le_trans hbc hab⟩

/-- The call `matchedJobs.sort((a, b) => b.matchScore - a.matchScore)`. -/
def sortByScore (l : List ScoredJob) : List ScoredJob :=
  l.insertionSort scoreGe

/-- The pipeline shared by both variants: `jobs.map(...)`, `sort`, then
`slice(0, topN)`. -/
def rankJobs (scoreJob : Job → ScoredJob) (topN : Nat) (jobs : List Job) : List ScoredJob :=
  (sortByScore (jobs.map scoreJob)).take topN

/-- The top-N cap of variant A, `slice(0, 10)`. -/
def topNA : Nat := 10

/-- The top-N cap of variant B, `slice(0, 5)`. -/
def topNB : Nat := 5

/-- The function `calculateMatches` of variant A. -/
def calculateMatchesA (s : State) : State :=
  { s with matchedJobs := rankJobs (scoreJobA s.answers) topNA s.jobs }

/-- The function `calculateMatches` of variant B. -/
def calculateMatchesB (s : State) : State :=
  { s with matchedJobs := rankJobs (scoreJobB s.answers) topNB s.jobs }

/-! ## IEEE-754 double arithmetic -/

/-- The integer nearest to `y`, a tie going to the even one. -/
def roundHalfEven (y : ℚ) : ℤ :=
  if y - ⌊y⌋ < 1 / 2 then ⌊y⌋
  else if 1 / 2 < y - ⌊y⌋ then ⌊y⌋ + 1
  else if ⌊y⌋ % 2 = 0 then ⌊y⌋ else ⌊y⌋ + 1

/-- The exponent of the last mantissa bit of a double of magnitude `x`: 52
below the binary exponent of `x`, and `-1074` for the subnormal numbers. -/
def quantum (x : ℚ) : ℤ := max (Int.log 2 x - 52) (-1074)

/-- The double nearest to a magnitude `x ≥ 0`: the nearest multiple of
`2 ^ quantum x`, a tie going to the even mantissa. -/
def roundMagnitude (x : ℚ) : ℚ :=
  (roundHalfEven (x / 2 ^ quantum x) : ℚ) * 2 ^ quantum x

/-- The double nearest to `x` (round to nearest, ties to even); the rounding
is symmetric in the sign. -/
def toDouble (x : ℚ) : ℚ :=
  if 0 ≤ x then roundMagnitude x else -roundMagnitude (-x)

/-- The double sum `x + y`. -/
def addD (x y : ℚ) : ℚ := toDouble (x + y)

/-- The double difference `x - y`. -/
def subD (x y : ℚ) : ℚ := toDouble (x - y)

/-- The double product `x * y`. -/
def mulD (x y : ℚ) : ℚ := toDouble (x * y)

/-- The double quotient `x / y`, for `y ≠ 0`. -/
def divD (x y : ℚ) : ℚ := toDouble (x / y)

/-! ## The scorer in double arithmetic -/

/-- The `weights` literal of variant A as the engine reads it: each decimal
becomes the nearest double. -/
def weights64 : List (String × ℚ) :=
  weights.map (fun p => (p.1, toDouble p.2))

/-- The `factorScore` of one field in double arithmetic:
`100 - Math.abs(jobValue - userValue) * 10`. -/
def factorScore64 (jobValue : ℚ) (userValue : Int) : ℚ :=
  subD 100 (mulD |subD jobValue (userValue : ℚ)| 10)

/-- The loop body of variant A in double arithmetic. -/
def stepA64 (table : List (String × ℚ)) (job : Job) (acc : ℚ × ℚ)
    (entry : String × Int) : ℚ × ℚ :=
  match job.get entry.1 with
  | none => acc
  | some jobValue =>
    (addD acc.1 (mulD (factorScore64 jobValue entry.2) (weightIn table entry.1)),
     addD acc.2 (weightIn table entry.1))

/-- The accumulators `(weightedScore, totalWeight)` after the loop, in double
arithmetic. -/
def loopA64 (table : List (String × ℚ)) (answers : Answers) (job : Job) : ℚ × ℚ :=
  answers.foldl (stepA64 table job) (0, 0)

/-- The `finalScore` of variant A for a weight table, in double arithmetic. -/
def finalScoreWith64 (table : List (String × ℚ)) (answers : Answers) (job : Job) : Int :=
  let acc := loopA64 table answers job
  if 0 < acc.2 then mathRound (divD acc.1 acc.2) else 0

/-- The `finalScore` of variant A as the engine computes it. -/
def finalScoreA64 (answers : Answers) (job : Job) : Int :=
  finalScoreWith64 weights64 answers job

/-- The loop body of variant B in double arithmetic; `totalFactors++` is a
double addition too. -/
def stepB64 (job : Job) (acc : ℚ × ℚ) (entry : String × Int) : ℚ × ℚ :=
  match job.get entry.1 with
  | none => acc
  | some jobValue => (addD acc.1 (factorScore64 jobValue entry.2), addD acc.2 1)

/-- The accumulators `(matchScore, totalFactors)` after the loop, in double
arithmetic. -/
def loopB64 (answers : Answers) (job : Job) : ℚ × ℚ :=
  answers.foldl (stepB64 job) (0, 0)

/-- The `finalScore` of variant B as the engine computes it. -/
def finalScoreB64 (answers : Answers) (job : Job) : Int :=
  let acc := loopB64 answers job
  if 0 < acc.2 then mathRound (divD acc.1 acc.2) else 0

/-- The callback of `jobs.map` in variant A, in double arithmetic. -/
def scoreJobA64 (answers : Answers) (job : Job) : ScoredJob :=
  { job := job, matchScore := finalScoreA64 answers job }

/-- The callback of `jobs.map` in variant B, in double arithmetic. -/
def scoreJobB64 (answers : Answers) (job : Job) : ScoredJob :=
  { job := job, matchScore := finalScoreB64 answers job }

/-- The function `calculateMatches` of variant A, in double arithmetic. -/
def calculateMatchesA64 (s : State) : State :=
  { s with matchedJobs := rankJobs (scoreJobA64 s.answers) topNA s.jobs }

/-- The function `calculateMatches` of variant B, in double arithmetic. -/
def calculateMatchesB64 (s : State) : State :=
  { s with matchedJobs := rankJobs (scoreJobB64 s.answers) topNB s.jobs }

/-! ## The questionnaire flow -/

/-- An entry of the `questions` list. `type` is `"scale"` or `"multiple"`;
`options` holds the `{ value, text }` pairs of a multiple-choice question. -/
structure Question where
  id : Nat
  field : String
  type : String
  text : String
  min : Int
  max : Int
  minLabel : String
  maxLabel : String
  options : List (Int × String)

/-- The lookup `questions[currentQuestionIndex]`; `none` is `undefined`. -/
def questionAt (questions : List Question) (index : Int) : Option Question :=
  if 0 ≤ index then questions[index.toNat]? else none

/-- The lookup `answers[field]`; `none` is `undefined`. -/
def answerAt (answers : Answers) (field : String) : Option Int :=
  answers.lookup field

/-- The assignment `answers[field] = value`: an existing property keeps its
place and takes the value, a new one is added at the end. -/
def setAnswer : Answers → String → Int → Answers
  | [], field, value => [(field, value)]
  | (k, w) :: rest, field, value =>
    if k = field then (k, value) :: rest else (k, w) :: setAnswer rest field value

/-- What the controls of the displayed question hold when a handler runs:
`parseInt(slider.value)` and, when a radio button is checked,
`parseInt(selectedOption.value)`. -/
structure Controls where
  slider : Int
  selected : Option Int

/-- The function `saveCurrentAnswer`. The result `none` is the `TypeError` of
reading `question.type` when `questions[currentQuestionIndex]` is
`undefined`; nothing has been assigned at that point. -/
def saveCurrentAnswer (questions : List Question) (dom : Controls) (s : State) :
    Option State :=
  match questionAt questions s.currentQuestionIndex with
  | none => none
  | some question =>
    if question.type = "scale" then
      some { s with answers := setAnswer s.answers question.field dom.slider }
    else if question.type = "multiple" then
      match dom.selected with
      | some value => some { s with answers := setAnswer s.answers question.field value }
      | none => some s
    else some s

/-- The function `handleNextQuestion`, for the `calculateMatches` of either
variant. When `saveCurrentAnswer` throws, the handler stops with the state as
it was. `displayCurrentQuestion` and `showResults` only write to the page. -/
def handleNextQuestion (calculateMatches : State → State) (questions : List Question)
    (dom : Controls) (s : State) : State :=
  match saveCurrentAnswer questions dom s with
  | none => s
  | some saved =>
    if saved.currentQuestionIndex < (questions.length : Int) - 1 then
      { saved with currentQuestionIndex := saved.currentQuestionIndex + 1 }
    else calculateMatches saved

/-- The function `handlePrevQuestion`. -/
def handlePrevQuestion (questions : List Question) (dom : Controls) (s : State) : State :=
  match saveCurrentAnswer questions dom s with
  | none => s
  | some saved =>
    if 0 < saved.currentQuestionIndex then
      { saved with currentQuestionIndex := saved.currentQuestionIndex - 1 }
    else saved

/-- The function `resetApplication`. -/
def resetApplication (s : State) : State :=
  { s with currentQuestionIndex := 0, answers := [], matchedJobs := [] }

/-- A click the page can deliver: on the next button, on the previous button
(each with what the controls hold), or on the start-over button. -/
inductive Event where
  | next (dom : Controls)
  | previous (dom : Controls)
  | reset

/-- The handler an event runs. -/
def step (calculateMatches : State → State) (questions : List Question) (s : State) :
    Event → State
  | Event.next dom => handleNextQuestion calculateMatches questions dom s
  | Event.previous dom => handlePrevQuestion questions dom s
  | Event.reset => resetApplication s

/-- The state after a sequence of events, handled one after the other. -/
def run (calculateMatches : State → State) (questions : List Question) (s : State)
    (events : List Event) : State :=
  events.foldl (step calculateMatches questions) s

/-- The expression `answers[question.field] || 5`: the recorded answer, and
`5` when it is `undefined` or falsy (zero). -/
def prefill (answers : Answers) (field : String) : Int :=
  match answerAt answers field with
  | some value => if value = 0 then 5 else value
  | none => 5

/-- The controls `displayCurrentQuestion` renders for the question: the
slider's `value` attribute and the text of the value display, the radio
buttons with their `checked` attribute, or nothing for another type. -/
inductive Rendered where
  | scale (sliderValue : Int) (valueDisplay : Int)
  | multiple (options : List (Int × Bool))
  | blank
deriving DecidableEq

/-- What `displayCurrentQuestion` puts on the page: the controls, whether
the previous button is there, and whether the next button is the last one
(labelled "See Results"). -/
structure QuestionView where
  controls : Rendered
  prevButton : Bool
  lastStep : Bool
deriving DecidableEq

/-- The function `displayCurrentQuestion`, the same in both variants but for
the language of the labels. The result `none` is the `TypeError` of an
`undefined` question. -/
def displayCurrentQuestion (questions : List Question) (s : State) : Option QuestionView :=
  match questionAt questions s.currentQuestionIndex with
  | none => none
  | some question =>
    some
      { controls :=
          if question.type = "scale" then
            Rendered.scale (prefill s.answers question.field) (prefill s.answers question.field)
          else if question.type = "multiple" then
            Rendered.multiple (question.options.map (fun option =>
              (option.1, decide (answerAt s.answers question.field = some option.1))))
          else Rendered.blank
        prevButton := decide (0 < s.currentQuestionIndex)
        lastStep := decide (s.currentQuestionIndex = (questions.length : Int) - 1) }

/-! ## The scoring formula as the specification words it -/

/-- The entries of the answer set whose field the job defines, each with the
job's value: `(field, jobValue, userValue)`. -/
def contributing (answers : Answers) (job : Job) : List (String × ℚ × Int) :=
  answers.filterMap (fun entry => (job.get entry.1).map (fun v => (entry.1, v, entry.2)))

/-- The weight the specification gives a field: the entry of the hard-coded
table, and `1.0` for a field that is not in the table. -/
def specWeight (field : String) : ℚ :=
  (weights.lookup field).getD 1

/-- The specification's weighted score: `0` when no field of the answer set
is defined on the job, and otherwise the weighted mean of
`100 - 10 * |j[f] - A[f]|` over the contributing fields, rounded half up. -/
def specScore (w : String → ℚ) (answers : Answers) (job : Job) : Int :=
  let c := contributing answers job
  if c = [] then 0
  else ⌊(c.map (fun t => w t.1 * (100 - 10 * |t.2.1 - (t.2.2 : ℚ)|))).sum /
          (c.map (fun t => w t.1)).sum + 1 / 2⌋

/-- The specification's unweighted score: `0` when no field contributes, and
otherwise the plain mean of the factor scores, rounded half up. -/
def specMean (answers : Answers) (job : Job) : Int :=
  let c := contributing answers job
  if c = [] then 0
  else ⌊(c.map (fun t => 100 - 10 * |t.2.1 - (t.2.2 : ℚ)|)).sum / (c.length : ℚ) + 1 / 2⌋

/-- The specification's weighted score with every operation rounded to a
double: `0` when no field contributes, and otherwise `Math.round` of the
double quotient of the two double sums, accumulated over the contributing
fields in answer order. -/
def specScore64 (w : String → ℚ) (answers : Answers) (job : Job) : Int :=
  let c := contributing answers job
  if c = [] then 0
  else mathRound (divD
    (c.foldl (fun sum t => addD sum (mulD (factorScore64 t.2.1 t.2.2) (w t.1))) 0)
    (c.foldl (fun sum t => addD sum (w t.1)) 0))

/-- The weight of a field as a double: the double nearest the table's
decimal, and `1.0` for a field that is not in the table. -/
def specWeight64 (field : String) : ℚ :=
  toDouble (specWeight field)

/-- An answer and a job value on the integer scale `0..10`. -/
def OnScale (t : String × ℚ × Int) : Prop :=
  (∃ n : Int, t.2.1 = (n : ℚ) ∧ 0 ≤ n ∧ n ≤ 10) ∧ 0 ≤ t.2.2 ∧ t.2.2 ≤ 10

/-! ## Concrete inputs -/

/-- The specification's example: the answers. -/
def exAnswers : Answers := [("work_environment", 8), ("experience_required", 5)]

/-- The specification's example: job 1. -/
def exJob1 : Job :=
  { display := [], attrs := [("id", 1), ("work_environment", 8), ("experience_required", 5)] }

/-- The specification's example: job 2. -/
def exJob2 : Job :=
  { display := [], attrs := [("id", 2), ("work_environment", 3), ("experience_required", 5)] }

/-- Answers at the two ends of the scale. -/
def boundsAnswers : Answers := [("work_environment", 0), ("company_size", 10)]

/-- A job with an attribute at the far end of the scale and a fractional one. -/
def boundsJob : Job :=
  { display := [("title", "Analyst")],
    attrs := [("id", 7), ("work_environment", 10), ("company_size", 5 / 2)] }

/-- A job whose `work_environment` is exactly the answer `5`. -/
def nearJob1 : Job :=
  { display := [("title", "Editor")], attrs := [("id", 1), ("work_environment", 5)] }

/-- A job whose `work_environment` is `5.03125`, a thirty-second off the
answer `5`. -/
def nearJob2 : Job :=
  { display := [("title", "Writer")], attrs := [("id", 2), ("work_environment", 161 / 32)] }

/-- The single-field answer set `{ work_environment: 5 }`. -/
def nearAnswers : Answers := [("work_environment", 5)]

/-- A single-field answer set on a weighted field, `{ company_size: 8 }`. -/
def sizeAnswers : Answers := [("company_size", 8)]

/-- A job one step from the answer `8` on `company_size`. -/
def sizeJob1 : Job :=
  { display := [("title", "Clerk")], attrs := [("id", 3), ("company_size", 7)] }

/-- A job five steps from the answer `8` on `company_size`. -/
def sizeJob2 : Job :=
  { display := [("title", "Agent")], attrs := [("id", 4), ("company_size", 3)] }

/-- A job that defines none of the answered fields of `exAnswers`. -/
def bareJob : Job :=
  { display := [("title", "Courier")], attrs := [("id", 9), ("salary_min", 1200)] }

/-- A two-step questionnaire: a scale question and a multiple-choice one. -/
def exQuestions : List Question :=
  [{ id := 1, field := "work_environment", type := "scale",
     text := "Office or field work?", min := 0, max := 10,
     minLabel := "office", maxLabel := "field", options := [] },
   { id := 2, field := "company_size", type := "multiple",
     text := "Which company size suits you?", min := 0, max := 10,
     minLabel := "", maxLabel := "", options := [(2, "small"), (8, "large")] }]

/-- The state when the questionnaire starts, with a catalog of two jobs. -/
def startState : State :=
  { currentQuestionIndex := 0, answers := [], jobs := [exJob1, exJob2], matchedJobs := [] }

/-- Five clicks: next, next, previous, start over, next. -/
def exEvents : List Event :=
  [Event.next { slider := 8, selected := none },
   Event.next { slider := 5, selected := some 2 },
   Event.previous { slider := 5, selected := some 8 },
   Event.reset,
   Event.next { slider := 3, selected := none }]

/-- The state on returning to the first question with the answer `0`
recorded for it. -/
def zeroState : State :=
  { currentQuestionIndex := 0, answers := [("work_environment", 0)],
    jobs := [exJob1, exJob2], matchedJobs := [] }

/-- The state on returning to the first question with the answer `7`
recorded for it. -/
def sevenState : State :=
  { currentQuestionIndex := 0, answers := [("work_environment", 7)],
    jobs := [exJob1, exJob2], matchedJobs := [] }

/-- Three answers on weighted fields, all `0`. -/
def tieAnswers : Answers :=
  [("teamwork_preference", 0), ("remote_preference", 0), ("project_type", 0)]

/-- A job that matches the first two answers of `tieAnswers` and is `6` off
the third. -/
def tieJob : Job :=
  { display := [("title", "Planner")],
    attrs := [("id", 5), ("teamwork_preference", 0), ("remote_preference", 0),
      ("project_type", 6)] }

/-- The single-field answer set `{ work_environment: 0 }`. -/
def zeroAnswers : Answers := [("work_environment", 0)]

/-- A job whose `work_environment` is the double nearest to `0.05`. -/
def twentiethJob : Job :=
  { display := [("title", "Porter")],
    attrs := [("id", 6), ("work_environment", 3602879701896397 / 72057594037927936)] }

/-! ## The loops in closed form -/

theorem weightIn_pos (table : List (String × ℚ)) (h : ∀ p ∈ table, 0 ≤ p.2)
    (field : String) : 0 < weightIn table field := by
  unfold weightIn
  induction table with
  | nil => simp [List.lookup]
  | cons p t ih =>
    obtain ⟨k, w⟩ := p
    have hw : 0 ≤ w := h (k, w) (List.mem_cons_self _ _)
    have ht : ∀ q ∈ t, 0 ≤ q.2 := fun q hq => h q (List.mem_cons_of_mem _ hq)
    simp only [List.lookup]
    cases hk : (field == k) with
    | true =>
      simp only
      split_ifs with h0
      · exact one_pos
      · exact lt_of_le_of_ne hw (Ne.symm h0)
    | false => exact ih ht

theorem weights_nonneg : ∀ p ∈ weights, 0 ≤ p.2 := by
  intro p hp
  simp only [weights, List.mem_cons, List.mem_singleton, List.not_mem_nil, or_false] at hp
  rcases hp with h | h | h | h | h | h | h | h | h | h <;> subst h <;> norm_num

theorem foldl_stepA (table : List (String × ℚ)) (job : Job) (answers : Answers) :
    ∀ acc : ℚ × ℚ, answers.foldl (stepA table job) acc =
      (acc.1 + ((contributing answers job).map
          (fun t => factorScore t.2.1 t.2.2 * weightIn table t.1)).sum,
       acc.2 + ((contributing answers job).map (fun t => weightIn table t.1)).sum) := by
  induction answers with
  | nil => intro acc; simp [contributing]
  | cons e t ih =>
    intro acc
    rw [List.foldl_cons, ih]
    cases hget : job.get e.1 with
    | none => simp [stepA, contributing, hget]
    | some v => simp [stepA, contributing, hget, add_assoc]

theorem loopA_eq (table : List (String × ℚ)) (answers : Answers) (job : Job) :
    loopA table answers job =
      (((contributing answers job).map
          (fun t => factorScore t.2.1 t.2.2 * weightIn table t.1)).sum,
       ((contributing answers job).map (fun t => weightIn table t.1)).sum) := by
  simp [loopA, foldl_stepA]

theorem foldl_stepB (job : Job) (answers : Answers) :
    ∀ acc : ℚ × Nat, answers.foldl (stepB job) acc =
      (acc.1 + ((contributing answers job).map (fun t => factorScore t.2.1 t.2.2)).sum,
       acc.2 + (contributing answers job).length) := by
  induction answers with
  | nil => intro acc; simp [contributing]
  | cons e t ih =>
    intro acc
    rw [List.foldl_cons, ih]
    cases hget : job.get e.1 with
    | none => simp [stepB, contributing, hget]
    | some v => simp [stepB, contributing, hget, add_assoc, add_comm]

theorem loopB_eq (answers : Answers) (job : Job) :
    loopB answers job =
      (((contributing answers job).map (fun t => factorScore t.2.1 t.2.2)).sum,
       (contributing answers job).length) := by
  simp [loopB, foldl_stepB]

theorem sum_map_pos {α : Type} (l : List α) (f : α → ℚ) (hf : ∀ x ∈ l, 0 < f x)
    (hl : l ≠ []) : 0 < (l.map f).sum := by
  induction l with
  | nil => exact absurd rfl hl
  | cons a t ih =>
    rw [List.map_cons, List.sum_cons]
    have ha : 0 < f a := hf a (List.mem_cons_self _ _)
    by_cases ht : t = []
    · subst ht; simpa using ha
    · exact add_pos ha (ih (fun x hx => hf x (List.mem_cons_of_mem _ hx)) ht)

theorem totalWeight_pos_iff (table : List (String × ℚ)) (h : ∀ p ∈ table, 0 ≤ p.2)
    (answers : Answers) (job : Job) :
    0 < (loopA table answers job).2 ↔ contributing answers job ≠ [] := by
  rw [loopA_eq]
  constructor
  · intro hpos hnil
    simp [hnil] at hpos
  · intro hne
    exact sum_map_pos _ _ (fun t _ => weightIn_pos table h t.1) hne

theorem finalScoreWith_eq (table : List (String × ℚ)) (h : ∀ p ∈ table, 0 ≤ p.2)
    (answers : Answers) (job : Job) :
    finalScoreWith table answers job = specScore (weightIn table) answers job := by
  unfold finalScoreWith specScore
  simp only
  by_cases hc : contributing answers job = []
  · have hng : ¬ 0 < (loopA table answers job).2 := by
      rw [totalWeight_pos_iff table h]; simpa using hc
    rw [if_neg hng, if_pos hc]
  · have hpos : 0 < (loopA table answers job).2 := (totalWeight_pos_iff table h _ _).2 hc
    rw [if_pos hpos, if_neg hc, loopA_eq]
    unfold mathRound factorScore
    have hsum : ((contributing answers job).map
          (fun t => (100 - |t.2.1 - (t.2.2 : ℚ)| * 10) * weightIn table t.1)) =
        ((contributing answers job).map
          (fun t => weightIn table t.1 * (100 - 10 * |t.2.1 - (t.2.2 : ℚ)|))) := by
      apply List.map_congr_left
      intro t _
      ring
    rw [hsum]

theorem weightIn_eq_getD (table : List (String × ℚ)) (h : ∀ p ∈ table, p.2 ≠ 0)
    (field : String) : weightIn table field = (table.lookup field).getD 1 := by
  unfold weightIn
  induction table with
  | nil => simp [List.lookup]
  | cons p t ih =>
    obtain ⟨k, w⟩ := p
    have hw : w ≠ 0 := h (k, w) (List.mem_cons_self _ _)
    simp only [List.lookup]
    cases hk : (field == k) with
    | true => simp [hw]
    | false => exact ih (fun q hq => h q (List.mem_cons_of_mem _ hq))

theorem weights_ne_zero : ∀ p ∈ weights, p.2 ≠ 0 := by
  intro p hp
  simp only [weights, List.mem_cons, List.mem_singleton, List.not_mem_nil, or_false] at hp
  rcases hp with h | h | h | h | h | h | h | h | h | h <;> subst h <;> norm_num

theorem specWeight_eq : specWeight = weightIn weights := by
  funext field
  rw [specWeight, weightIn_eq_getD weights weights_ne_zero]

theorem finalScoreB_eq (answers : Answers) (job : Job) :
    finalScoreB answers job = specMean answers job := by
  unfold finalScoreB specMean
  simp only
  rw [loopB_eq]
  by_cases hc : contributing answers job = []
  · simp [hc]
  · have hpos : 0 < (contributing answers job).length := List.length_pos.2 hc
    rw [if_pos hpos, if_neg hc]
    unfold mathRound factorScore
    have hsum : ((contributing answers job).map
          (fun t => 100 - |t.2.1 - (t.2.2 : ℚ)| * 10)) =
        ((contributing answers job).map (fun t => 100 - 10 * |t.2.1 - (t.2.2 : ℚ)|)) := by
      apply List.map_congr_left
      intro t _
      ring
    rw [hsum]

theorem mem_rankJobs (scoreJob : Job → ScoredJob) (topN : Nat) (jobs : List Job)
    (sj : ScoredJob) (h : sj ∈ rankJobs scoreJob topN jobs) :
    ∃ job ∈ jobs, scoreJob job = sj := by
  have h1 : sj ∈ sortByScore (jobs.map scoreJob) := List.mem_of_mem_take h
  have h2 : sj ∈ jobs.map scoreJob := (List.perm_insertionSort scoreGe _).mem_iff.1 h1
  exact List.mem_map.1 h2

theorem mem_contributing (answers : Answers) (job : Job) (t : String × ℚ × Int) :
    t ∈ contributing answers job ↔ (t.1, t.2.2) ∈ answers ∧ job.get t.1 = some t.2.1 := by
  obtain ⟨f, v, a⟩ := t
  simp only [contributing, List.mem_filterMap, Option.map_eq_some', Prod.mk.injEq]
  constructor
  · rintro ⟨e, he, w, hw, h1, h2, h3⟩
    subst h1 h2 h3
    exact ⟨he, hw⟩
  · rintro ⟨he, hw⟩
    exact ⟨(f, a), he, v, hw, rfl, rfl, rfl⟩

theorem mathRound_bounds (x : ℚ) (h0 : 0 ≤ x) (h1 : x ≤ 100) :
    0 ≤ mathRound x ∧ mathRound x ≤ 100 := by
  unfold mathRound
  constructor
  · exact Int.floor_nonneg.2 (by linarith)
  · have h : ⌊x + 1 / 2⌋ < 101 := Int.floor_lt.2 (by push_cast; linarith)
    omega

theorem weighted_sum_bounds {α : Type} (l : List α) (f w : α → ℚ)
    (hf : ∀ x ∈ l, 0 ≤ f x ∧ f x ≤ 100) (hw : ∀ x ∈ l, 0 < w x) :
    0 ≤ (l.map (fun x => f x * w x)).sum ∧
      (l.map (fun x => f x * w x)).sum ≤ 100 * (l.map w).sum := by
  induction l with
  | nil => simp
  | cons a t ih =>
    have iht := ih (fun x hx => hf x (List.mem_cons_of_mem _ hx))
      (fun x hx => hw x (List.mem_cons_of_mem _ hx))
    have ha := hf a (List.mem_cons_self _ _)
    have hwa := hw a (List.mem_cons_self _ _)
    simp only [List.map_cons, List.sum_cons]
    constructor
    · have := mul_nonneg ha.1 hwa.le
      linarith [iht.1]
    · have : f a * w a ≤ 100 * w a := mul_le_mul_of_nonneg_right ha.2 hwa.le
      linarith [iht.2]

theorem factorScore_bounds (v : ℚ) (a : Int) (h : |v - (a : ℚ)| ≤ 10) :
    0 ≤ factorScore v a ∧ factorScore v a ≤ 100 := by
  unfold factorScore
  have := abs_nonneg (v - (a : ℚ))
  constructor <;> linarith

theorem finalScoreWith_bounds (table : List (String × ℚ)) (htab : ∀ p ∈ table, 0 ≤ p.2)
    (answers : Answers) (job : Job)
    (h : ∀ t ∈ contributing answers job, |t.2.1 - (t.2.2 : ℚ)| ≤ 10) :
    0 ≤ finalScoreWith table answers job ∧ finalScoreWith table answers job ≤ 100 := by
  unfold finalScoreWith
  simp only
  split_ifs with hpos
  · have hb := weighted_sum_bounds (contributing answers job)
      (fun t => factorScore t.2.1 t.2.2) (fun t => weightIn table t.1)
      (fun t ht => factorScore_bounds _ _ (h t ht)) (fun t _ => weightIn_pos table htab t.1)
    rw [loopA_eq] at hpos ⊢
    simp only at hpos ⊢
    apply mathRound_bounds
    · exact div_nonneg hb.1 hpos.le
    · rw [div_le_iff₀ hpos]; exact hb.2
  · exact ⟨le_refl _, by norm_num⟩

theorem finalScoreB_bounds (answers : Answers) (job : Job)
    (h : ∀ t ∈ contributing answers job, |t.2.1 - (t.2.2 : ℚ)| ≤ 10) :
    0 ≤ finalScoreB answers job ∧ finalScoreB answers job ≤ 100 := by
  unfold finalScoreB
  simp only
  split_ifs with hpos
  · have hb := weighted_sum_bounds (contributing answers job)
      (fun t => factorScore t.2.1 t.2.2) (fun _ => 1)
      (fun t ht => factorScore_bounds _ _ (h t ht)) (fun _ _ => one_pos)
    rw [loopB_eq] at hpos ⊢
    simp only [mul_one, List.map_const', List.sum_replicate, nsmul_eq_mul] at hb hpos ⊢
    have hq : (0 : ℚ) < ((contributing answers job).length : ℚ) := by exact_mod_cast hpos
    apply mathRound_bounds
    · exact div_nonneg hb.1 hq.le
    · rw [div_le_iff₀ hq]; linarith [hb.2]
  · exact ⟨le_refl _, by norm_num⟩

theorem diff_le_ten (v : ℚ) (a : Int) (hv : 0 ≤ v ∧ v ≤ 10) (ha : 0 ≤ a ∧ a ≤ 10) :
    |v - (a : ℚ)| ≤ 10 := by
  have h0 : (0 : ℚ) ≤ (a : ℚ) := by exact_mod_cast ha.1
  have h1 : (a : ℚ) ≤ 10 := by exact_mod_cast ha.2
  rw [abs_le]
  constructor <;> linarith [hv.1, hv.2]

/-! ## C2 -/

/-- C2: when every answer lies in `[0,10]` and every attribute of the job that
an answered field names lies in `[0,10]`, the `matchScore` of both variants
is an integer between `0` and `100`. -/
theorem C2_matchScore_bounds (answers : Answers) (job : Job)
    (hA : ∀ e ∈ answers, 0 ≤ e.2 ∧ e.2 ≤ 10)
    (hJ : ∀ e ∈ answers, ∀ v : ℚ, job.get e.1 = some v → 0 ≤ v ∧ v ≤ 10) :
    (0 ≤ (scoreJobA answers job).matchScore ∧ (scoreJobA answers job).matchScore ≤ 100) ∧
    (0 ≤ (scoreJobB answers job).matchScore ∧ (scoreJobB answers job).matchScore ≤ 100) := by
  have h : ∀ t ∈ contributing answers job, |t.2.1 - (t.2.2 : ℚ)| ≤ 10 := by
    intro t ht
    obtain ⟨hmem, hget⟩ := (mem_contributing answers job t).1 ht
    exact diff_le_ten _ _ (hJ _ hmem _ hget) (hA _ hmem)
  exact ⟨finalScoreWith_bounds weights weights_nonneg answers job h,
    finalScoreB_bounds answers job h⟩

/-- C2 at `boundsAnswers` and `boundsJob`. -/
theorem C2_matchScore_bounds_witness :
    (∀ e ∈ boundsAnswers, 0 ≤ e.2 ∧ e.2 ≤ 10) ∧
    (∀ e ∈ boundsAnswers, ∀ v : ℚ, boundsJob.get e.1 = some v → 0 ≤ v ∧ v ≤ 10) ∧
    (0 ≤ (scoreJobA boundsAnswers boundsJob).matchScore ∧
      (scoreJobA boundsAnswers boundsJob).matchScore ≤ 100) ∧
    (0 ≤ (scoreJobB boundsAnswers boundsJob).matchScore ∧
      (scoreJobB boundsAnswers boundsJob).matchScore ≤ 100) := by
  have hA : ∀ e ∈ boundsAnswers, 0 ≤ e.2 ∧ e.2 ≤ 10 := by decide
  have hJ : ∀ e ∈ boundsAnswers, ∀ v : ℚ, boundsJob.get e.1 = some v → 0 ≤ v ∧ v ≤ 10 := by
    intro e he v hv
    simp only [boundsAnswers, List.mem_cons, List.mem_singleton, List.not_mem_nil,
      or_false] at he
    rcases he with rfl | rfl <;>
      simp [Job.get, boundsJob, List.lookup] at hv <;> subst hv <;> norm_num
  exact ⟨hA, hJ, C2_matchScore_bounds boundsAnswers boundsJob hA hJ⟩

/-! ## C3, C4, C5: the ranking -/

theorem sortByScore_sorted (l : List ScoredJob) : (sortByScore l).Pairwise scoreGe :=
  List.sorted_insertionSort scoreGe l

theorem sortByScore_perm (l : List ScoredJob) : List.Perm (sortByScore l) l :=
  List.perm_insertionSort scoreGe l

theorem rankJobs_length (scoreJob : Job → ScoredJob) (topN : Nat) (jobs : List Job) :
    (rankJobs scoreJob topN jobs).length = min topN jobs.length := by
  simp [rankJobs, sortByScore, List.length_take, List.length_insertionSort]

theorem rankJobs_topN (scoreJob : Job → ScoredJob) (topN : Nat) (jobs : List Job) :
    (rankJobs scoreJob topN jobs).Pairwise (fun a b => b.matchScore ≤ a.matchScore) ∧
    ∃ rest : List ScoredJob,
      List.Perm (rankJobs scoreJob topN jobs ++ rest) (jobs.map scoreJob) ∧
      ∀ x ∈ rest, ∀ y ∈ rankJobs scoreJob topN jobs, x.matchScore ≤ y.matchScore := by
  have hs : ((sortByScore (jobs.map scoreJob)).take topN ++
      (sortByScore (jobs.map scoreJob)).drop topN).Pairwise scoreGe := by
    rw [List.take_append_drop]
    exact sortByScore_sorted _
  rw [List.pairwise_append] at hs
  refine ⟨hs.1, (sortByScore (jobs.map scoreJob)).drop topN, ?_, ?_⟩
  · unfold rankJobs
    rw [List.take_append_drop]
    exact sortByScore_perm _
  · intro x hx y hy
    exact hs.2.2 y hy x hx

/-- C3: in both variants the list left in `matchedJobs` is ordered by
non-increasing `matchScore`, it has `min(N, |catalog|)` entries (`N = 10` in
variant A, `N = 5` in variant B), and together with a remainder it is a
rearrangement of all the scored catalog jobs, no job of the remainder scoring
above a job of the list. -/
theorem C3_sorted_topN (s : State) :
    ((calculateMatchesA s).matchedJobs.Pairwise (fun a b => b.matchScore ≤ a.matchScore) ∧
      (calculateMatchesA s).matchedJobs.length = min 10 s.jobs.length ∧
      ∃ rest : List ScoredJob,
        List.Perm ((calculateMatchesA s).matchedJobs ++ rest)
          (s.jobs.map (scoreJobA s.answers)) ∧
        ∀ x ∈ rest, ∀ y ∈ (calculateMatchesA s).matchedJobs, x.matchScore ≤ y.matchScore) ∧
    ((calculateMatchesB s).matchedJobs.Pairwise (fun a b => b.matchScore ≤ a.matchScore) ∧
      (calculateMatchesB s).matchedJobs.length = min 5 s.jobs.length ∧
      ∃ rest : List ScoredJob,
        List.Perm ((calculateMatchesB s).matchedJobs ++ rest)
          (s.jobs.map (scoreJobB s.answers)) ∧
        ∀ x ∈ rest, ∀ y ∈ (calculateMatchesB s).matchedJobs, x.matchScore ≤ y.matchScore) := by
  refine ⟨⟨?_, ?_, ?_⟩, ⟨?_, ?_, ?_⟩⟩
  · exact (rankJobs_topN (scoreJobA s.answers) topNA s.jobs).1
  · exact rankJobs_length (scoreJobA s.answers) topNA s.jobs
  · exact (rankJobs_topN (scoreJobA s.answers) topNA s.jobs).2
  · exact (rankJobs_topN (scoreJobB s.answers) topNB s.jobs).1
  · exact rankJobs_length (scoreJobB s.answers) topNB s.jobs
  · exact (rankJobs_topN (scoreJobB s.answers) topNB s.jobs).2

/-- C5: the number of scored jobs `calculateMatches` leaves in `matchedJobs`
is `min(10, |catalog|)` in variant A and `min(5, |catalog|)` in variant B; an
empty catalog gives an empty result. -/
theorem C5_output_length (s : State) :
    (calculateMatchesA s).matchedJobs.length = min 10 s.jobs.length ∧
    (calculateMatchesB s).matchedJobs.length = min 5 s.jobs.length ∧
    (s.jobs = [] → (calculateMatchesA s).matchedJobs = [] ∧
      (calculateMatchesB s).matchedJobs = []) := by
  refine ⟨rankJobs_length (scoreJobA s.answers) topNA s.jobs,
    rankJobs_length (scoreJobB s.answers) topNB s.jobs, ?_⟩
  intro h
  simp [calculateMatchesA, calculateMatchesB, rankJobs, sortByScore, h]

theorem filter_orderedInsert (v : Int) (a : ScoredJob) (l : List ScoredJob) :
    (l.orderedInsert scoreGe a).filter (fun x => decide (x.matchScore = v)) =
      if a.matchScore = v then a :: l.filter (fun x => decide (x.matchScore = v))
      else l.filter (fun x => decide (x.matchScore = v)) := by
  induction l with
  | nil => by_cases h : a.matchScore = v <;> simp [h]
  | cons b t ih =>
    by_cases hab : scoreGe a b
    · rw [List.orderedInsert, if_pos hab]
      by_cases h : a.matchScore = v <;> simp [List.filter_cons, h]
    · rw [List.orderedInsert, if_neg hab, List.filter_cons, ih]
      have hlt : a.matchScore < b.matchScore := not_le.1 hab
      by_cases h : a.matchScore = v
      · have hb : b.matchScore ≠ v := by omega
        simp [List.filter_cons, h, hb]
      · by_cases hb : b.matchScore = v <;> simp [List.filter_cons, h, hb]

theorem sortByScore_filter (v : Int) (l : List ScoredJob) :
    (sortByScore l).filter (fun x => decide (x.matchScore = v)) =
      l.filter (fun x => decide (x.matchScore = v)) := by
  induction l with
  | nil => rfl
  | cons a t ih =>
    have ih2 : (List.insertionSort scoreGe t).filter (fun x => decide (x.matchScore = v)) =
        t.filter (fun x => decide (x.matchScore = v)) := ih
    rw [sortByScore, List.insertionSort, filter_orderedInsert, ih2]
    by_cases h : a.matchScore = v <;> simp [List.filter_cons, h]

theorem rankJobs_stable (scoreJob : Job → ScoredJob) (topN : Nat) (jobs : List Job) (v : Int) :
    List.IsPrefix ((rankJobs scoreJob topN jobs).filter (fun x => decide (x.matchScore = v)))
      ((jobs.map scoreJob).filter (fun x => decide (x.matchScore = v))) := by
  rw [← sortByScore_filter v (jobs.map scoreJob)]
  exact List.IsPrefix.filter _ (List.take_prefix topN _)

theorem rankJobs_pair (scoreJob : Job → ScoredJob) (topN : Nat) (jobs : List Job)
    (a b : ScoredJob) (hab : a.matchScore = b.matchScore)
    (h : List.Sublist [a, b] (rankJobs scoreJob topN jobs)) :
    List.Sublist [a, b] (jobs.map scoreJob) := by
  have h1 := List.Sublist.filter (fun x => decide (x.matchScore = b.matchScore)) h
  have h2 : [a, b].filter (fun x => decide (x.matchScore = b.matchScore)) = [a, b] := by
    simp [List.filter_cons, hab]
  rw [h2] at h1
  exact (h1.trans (rankJobs_stable scoreJob topN jobs b.matchScore).sublist).trans
    (List.filter_sublist _)

theorem rankJobs_const (scoreJob : Job → ScoredJob) (topN : Nat) (jobs : List Job) (c : Int)
    (h : ∀ job, (scoreJob job).matchScore = c) :
    rankJobs scoreJob topN jobs = (jobs.take topN).map scoreJob := by
  have hs : (jobs.map scoreJob).Sorted scoreGe := by
    rw [List.Sorted, List.pairwise_map]
    exact List.pairwise_of_forall (fun x y => by simp [scoreGe, h])
  rw [rankJobs, sortByScore, List.Sorted.insertionSort_eq hs, List.map_take]

/-- C4: in both variants the sort is stable. For every score `v`, the jobs of
the output that score `v`, in output order, are an initial segment of the
catalog jobs that score `v`, in catalog order; so two output jobs of equal
score that stand one before the other stand in that order among the scored
catalog jobs. With an empty answer set the output is the first
`min(N, |catalog|)` catalog jobs, in catalog order, each with score `0`. -/
theorem C4_stable_order (s : State) :
    (∀ v : Int,
      List.IsPrefix
        ((calculateMatchesA s).matchedJobs.filter (fun x => decide (x.matchScore = v)))
        ((s.jobs.map (scoreJobA s.answers)).filter (fun x => decide (x.matchScore = v)))) ∧
    (∀ a b : ScoredJob, a.matchScore = b.matchScore →
      List.Sublist [a, b] (calculateMatchesA s).matchedJobs →
      List.Sublist [a, b] (s.jobs.map (scoreJobA s.answers))) ∧
    (∀ v : Int,
      List.IsPrefix
        ((calculateMatchesB s).matchedJobs.filter (fun x => decide (x.matchScore = v)))
        ((s.jobs.map (scoreJobB s.answers)).filter (fun x => decide (x.matchScore = v)))) ∧
    (∀ a b : ScoredJob, a.matchScore = b.matchScore →
      List.Sublist [a, b] (calculateMatchesB s).matchedJobs →
      List.Sublist [a, b] (s.jobs.map (scoreJobB s.answers))) ∧
    (s.answers = [] →
      (calculateMatchesA s).matchedJobs =
        (s.jobs.take 10).map (fun job => ScoredJob.mk job 0) ∧
      (calculateMatchesA s).matchedJobs.length = min 10 s.jobs.length ∧
      (calculateMatchesB s).matchedJobs =
        (s.jobs.take 5).map (fun job => ScoredJob.mk job 0) ∧
      (calculateMatchesB s).matchedJobs.length = min 5 s.jobs.length) := by
  refine ⟨rankJobs_stable _ _ _, rankJobs_pair _ _ _, rankJobs_stable _ _ _,
    rankJobs_pair _ _ _, ?_⟩
  intro hA
  have hA0 : ∀ job, (scoreJobA s.answers job).matchScore = 0 := by
    intro job; simp [hA, scoreJobA, finalScoreA, finalScoreWith, loopA]
  have hB0 : ∀ job, (scoreJobB s.answers job).matchScore = 0 := by
    intro job; simp [hA, scoreJobB, finalScoreB, loopB]
  have fA : scoreJobA s.answers = fun job => ScoredJob.mk job 0 := by
    funext job
    have := hA0 job
    simp only [scoreJobA] at this ⊢
    rw [this]
  have fB : scoreJobB s.answers = fun job => ScoredJob.mk job 0 := by
    funext job
    have := hB0 job
    simp only [scoreJobB] at this ⊢
    rw [this]
  refine ⟨?_, rankJobs_length (scoreJobA s.answers) topNA s.jobs, ?_,
    rankJobs_length (scoreJobB s.answers) topNB s.jobs⟩
  · show rankJobs (scoreJobA s.answers) topNA s.jobs = _
    rw [rankJobs_const _ _ _ 0 hA0, fA]; rfl
  · show rankJobs (scoreJobB s.answers) topNB s.jobs = _
    rw [rankJobs_const _ _ _ 0 hB0, fB]; rfl

/-! ## C6, C7: exact match, no overlap -/

theorem mathRound_intCast (n : Int) : mathRound (n : ℚ) = n := by
  unfold mathRound
  rw [Int.floor_eq_iff]
  constructor <;> linarith

theorem mathRound_mono {x y : ℚ} (h : x ≤ y) : mathRound x ≤ mathRound y :=
  Int.floor_mono (by linarith)

theorem weighted_sum_const {α : Type} (l : List α) (f w : α → ℚ) (c : ℚ)
    (hf : ∀ x ∈ l, f x = c) : (l.map (fun x => f x * w x)).sum = c * (l.map w).sum := by
  induction l with
  | nil => simp
  | cons a t ih =>
    simp only [List.map_cons, List.sum_cons]
    rw [ih (fun x hx => hf x (List.mem_cons_of_mem _ hx)), hf a (List.mem_cons_self _ _)]
    ring

theorem finalScoreWith_const (table : List (String × ℚ)) (htab : ∀ p ∈ table, 0 ≤ p.2)
    (answers : Answers) (job : Job) (c : ℚ) (hne : contributing answers job ≠ [])
    (hc : ∀ t ∈ contributing answers job, factorScore t.2.1 t.2.2 = c) :
    finalScoreWith table answers job = mathRound c := by
  have hpos : 0 < (loopA table answers job).2 := (totalWeight_pos_iff table htab _ _).2 hne
  unfold finalScoreWith
  simp only
  rw [if_pos hpos]
  rw [loopA_eq] at hpos ⊢
  simp only at hpos ⊢
  rw [weighted_sum_const (contributing answers job) (fun t => factorScore t.2.1 t.2.2)
    (fun t => weightIn table t.1) c hc, mul_div_assoc, div_self hpos.ne', mul_one]

theorem finalScoreB_const (answers : Answers) (job : Job) (c : ℚ)
    (hne : contributing answers job ≠ [])
    (hc : ∀ t ∈ contributing answers job, factorScore t.2.1 t.2.2 = c) :
    finalScoreB answers job = mathRound c := by
  have hlen : 0 < (contributing answers job).length := List.length_pos.2 hne
  have hq : (0 : ℚ) < ((contributing answers job).length : ℚ) := by exact_mod_cast hlen
  unfold finalScoreB
  simp only
  rw [loopB_eq]
  simp only
  rw [if_pos hlen]
  have h := weighted_sum_const (contributing answers job) (fun t => factorScore t.2.1 t.2.2)
    (fun _ => 1) c hc
  simp only [mul_one, List.map_const', List.sum_replicate, nsmul_eq_mul] at h
  rw [h, mul_div_assoc, div_self hq.ne', mul_one]

theorem contributing_eq_nil (answers : Answers) (job : Job)
    (h : ∀ e ∈ answers, job.get e.1 = none) : contributing answers job = [] := by
  rw [List.eq_nil_iff_forall_not_mem]
  intro t ht
  obtain ⟨hmem, hget⟩ := (mem_contributing answers job t).1 ht
  rw [h _ hmem] at hget
  exact Option.noConfusion hget

/-- C6 as stated fails on the empty answer set: every answered field agrees
with the job (there is none) and both variants score `0`, not `100`. -/
theorem C6_counterexample :
    (∀ e ∈ ([] : Answers), exJob1.get e.1 = some (e.2 : ℚ)) ∧
    (scoreJobA [] exJob1).matchScore = 0 ∧ (scoreJobA [] exJob1).matchScore ≠ 100 ∧
    (scoreJobB [] exJob1).matchScore = 0 ∧ (scoreJobB [] exJob1).matchScore ≠ 100 := by
  refine ⟨fun e he => absurd he (List.not_mem_nil e), ?_, ?_, ?_, ?_⟩ <;>
    simp [scoreJobA, scoreJobB, finalScoreA, finalScoreWith, finalScoreB, loopA, loopB]

/-- C6 (amended): for a non-empty answer set and a job whose value equals the
answer at every answered field, both variants score `100`. -/
theorem C6_exact_match (answers : Answers) (job : Job) (hne : answers ≠ [])
    (h : ∀ e ∈ answers, job.get e.1 = some (e.2 : ℚ)) :
    (scoreJobA answers job).matchScore = 100 ∧ (scoreJobB answers job).matchScore = 100 := by
  have hc : ∀ t ∈ contributing answers job, factorScore t.2.1 t.2.2 = ((100 : Int) : ℚ) := by
    intro t ht
    obtain ⟨hmem, hget⟩ := (mem_contributing answers job t).1 ht
    have heq : t.2.1 = (t.2.2 : ℚ) := by
      have := h _ hmem
      simp only at this
      rw [hget] at this
      exact Option.some.inj this
    simp [factorScore, heq]
  have hcn : contributing answers job ≠ [] := by
    obtain ⟨e, he⟩ := List.exists_mem_of_ne_nil answers hne
    have : (e.1, (e.2 : ℚ), e.2) ∈ contributing answers job :=
      (mem_contributing answers job _).2 ⟨he, h e he⟩
    exact List.ne_nil_of_mem this
  constructor
  · show finalScoreWith weights answers job = 100
    rw [finalScoreWith_const weights weights_nonneg answers job _ hcn hc, mathRound_intCast]
  · show finalScoreB answers job = 100
    rw [finalScoreB_const answers job _ hcn hc, mathRound_intCast]

/-- C6 (amended) at the specification's example, answers and job 1. -/
theorem C6_exact_match_witness :
    exAnswers ≠ [] ∧ (∀ e ∈ exAnswers, exJob1.get e.1 = some (e.2 : ℚ)) ∧
    (scoreJobA exAnswers exJob1).matchScore = 100 ∧
    (scoreJobB exAnswers exJob1).matchScore = 100 := by
  have hne : exAnswers ≠ [] := by simp [exAnswers]
  have h : ∀ e ∈ exAnswers, exJob1.get e.1 = some (e.2 : ℚ) := by
    intro e he
    simp only [exAnswers, List.mem_cons, List.mem_singleton, List.not_mem_nil, or_false] at he
    rcases he with rfl | rfl <;> simp [Job.get, exJob1, List.lookup]
  exact ⟨hne, h, C6_exact_match exAnswers exJob1 hne h⟩

/-- C7: when the job defines no field of the answer set (as for every job when
the answer set is empty), the loop leaves both accumulators at `0`, the guard
`totalWeight > 0` (`totalFactors > 0`) fails, so the branch that divides is
not taken, and the `matchScore` is `0`, in both variants. -/
theorem C7_no_overlap_zero (answers : Answers) (job : Job)
    (h : ∀ e ∈ answers, job.get e.1 = none) :
    (loopA weights answers job = (0, 0) ∧ ¬ 0 < (loopA weights answers job).2 ∧
      (scoreJobA answers job).matchScore = 0) ∧
    (loopB answers job = (0, 0) ∧ ¬ 0 < (loopB answers job).2 ∧
      (scoreJobB answers job).matchScore = 0) := by
  have hc := contributing_eq_nil answers job h
  have hA : loopA weights answers job = (0, 0) := by rw [loopA_eq, hc]; rfl
  have hB : loopB answers job = (0, 0) := by rw [loopB_eq, hc]; rfl
  refine ⟨⟨hA, ?_, ?_⟩, ⟨hB, ?_, ?_⟩⟩
  · rw [hA]; exact lt_irrefl _
  · show finalScoreWith weights answers job = 0
    simp [finalScoreWith, hA]
  · rw [hB]; exact lt_irrefl _
  · show finalScoreB answers job = 0
    simp [finalScoreB, hB]

/-- C7 at the example answers and a job that has none of their fields. -/
theorem C7_no_overlap_zero_witness :
    (∀ e ∈ exAnswers, bareJob.get e.1 = none) ∧
    (loopA weights exAnswers bareJob = (0, 0) ∧ ¬ 0 < (loopA weights exAnswers bareJob).2 ∧
      (scoreJobA exAnswers bareJob).matchScore = 0) ∧
    (loopB exAnswers bareJob = (0, 0) ∧ ¬ 0 < (loopB exAnswers bareJob).2 ∧
      (scoreJobB exAnswers bareJob).matchScore = 0) := by
  have h : ∀ e ∈ exAnswers, bareJob.get e.1 = none := by
    intro e he
    simp only [exAnswers, List.mem_cons, List.mem_singleton, List.not_mem_nil, or_false] at he
    rcases he with rfl | rfl <;> simp [Job.get, bareJob, List.lookup]
  exact ⟨h, C7_no_overlap_zero exAnswers bareJob h⟩

/-! ## C9: the catalog is left alone -/

theorem rankJobs_frame (score : Job → Int) (topN : Nat) (jobs : List Job) (sj : ScoredJob)
    (h : sj ∈ rankJobs (fun job => ScoredJob.mk job (score job)) topN jobs) :
    sj.job ∈ jobs ∧ sj.matchScore = score sj.job ∧
      ∀ field : String, field ≠ "matchScore" → sj.get field = sj.job.get field := by
  obtain ⟨job, hjob, rfl⟩ := mem_rankJobs _ _ _ _ h
  refine ⟨hjob, rfl, ?_⟩
  intro field hf
  simp [ScoredJob.get, hf]

/-- C9: in both variants `calculateMatches` assigns `matchedJobs` only: the
catalog `jobs` (and with it every catalog record), the answers and the
question index are what they were; every scored job of the output is a copy
of a catalog record, equal to it at every property other than `matchScore`,
and its `matchScore` property is the computed score. -/
theorem C9_catalog_unchanged (s : State) :
    ((calculateMatchesA s).jobs = s.jobs ∧ (calculateMatchesA s).answers = s.answers ∧
      (calculateMatchesA s).currentQuestionIndex = s.currentQuestionIndex ∧
      ∀ sj ∈ (calculateMatchesA s).matchedJobs,
        sj.job ∈ s.jobs ∧ sj.get "matchScore" = some (sj.matchScore : ℚ) ∧
        ∀ field : String, field ≠ "matchScore" → sj.get field = sj.job.get field) ∧
    ((calculateMatchesB s).jobs = s.jobs ∧ (calculateMatchesB s).answers = s.answers ∧
      (calculateMatchesB s).currentQuestionIndex = s.currentQuestionIndex ∧
      ∀ sj ∈ (calculateMatchesB s).matchedJobs,
        sj.job ∈ s.jobs ∧ sj.get "matchScore" = some (sj.matchScore : ℚ) ∧
        ∀ field : String, field ≠ "matchScore" → sj.get field = sj.job.get field) := by
  refine ⟨⟨rfl, rfl, rfl, ?_⟩, ⟨rfl, rfl, rfl, ?_⟩⟩
  · intro sj hsj
    have h := rankJobs_frame (finalScoreA s.answers) topNA s.jobs sj hsj
    exact ⟨h.1, by simp [ScoredJob.get], h.2.2⟩
  · intro sj hsj
    have h := rankJobs_frame (finalScoreB s.answers) topNB s.jobs sj hsj
    exact ⟨h.1, by simp [ScoredJob.get], h.2.2⟩

/-! ## Unit weights in exact arithmetic -/

theorem finalScoreWith_unit (table : List (String × ℚ)) (answers : Answers) (job : Job)
    (h : ∀ t ∈ contributing answers job, weightIn table t.1 = 1) :
    finalScoreWith table answers job = finalScoreB answers job := by
  have h1 : ((contributing answers job).map
      (fun t => factorScore t.2.1 t.2.2 * weightIn table t.1)) =
      ((contributing answers job).map (fun t => factorScore t.2.1 t.2.2)) := by
    apply List.map_congr_left
    intro t ht
    rw [h t ht, mul_one]
  have h2 : ((contributing answers job).map (fun t => weightIn table t.1)) =
      ((contributing answers job).map (fun _ => (1 : ℚ))) := by
    apply List.map_congr_left
    intro t ht
    exact h t ht
  unfold finalScoreWith finalScoreB
  simp only
  rw [loopA_eq, loopB_eq, h1, h2]
  simp only [List.map_const', List.sum_replicate, nsmul_eq_mul, mul_one, Nat.cast_pos]

theorem weightIn_nil (field : String) : weightIn [] field = 1 := by
  simp [weightIn, List.lookup]

theorem weightIn_of_lookup (table : List (String × ℚ)) (field : String)
    (h : table.lookup field = some 1 ∨ table.lookup field = none) :
    weightIn table field = 1 := by
  unfold weightIn
  rcases h with h | h <;> simp [h]

/-! ## C11: the questionnaire index -/

theorem questionAt_isSome (questions : List Question) (index : Int) (h0 : 0 ≤ index)
    (h1 : index < (questions.length : Int)) :
    ∃ question, questionAt questions index = some question := by
  have hlt : index.toNat < questions.length := by omega
  exact ⟨questions[index.toNat], by simp [questionAt, h0, List.getElem?_eq_getElem hlt]⟩

theorem saveCurrentAnswer_frame (questions : List Question) (dom : Controls) (s saved : State)
    (h : saveCurrentAnswer questions dom s = some saved) :
    saved.currentQuestionIndex = s.currentQuestionIndex ∧ saved.jobs = s.jobs ∧
      saved.matchedJobs = s.matchedJobs := by
  unfold saveCurrentAnswer at h
  cases hq : questionAt questions s.currentQuestionIndex with
  | none => rw [hq] at h; exact Option.noConfusion h
  | some question =>
    rw [hq] at h
    simp only at h
    split_ifs at h with h1 h2
    · cases h; exact ⟨rfl, rfl, rfl⟩
    · cases hsel : dom.selected with
      | none => rw [hsel] at h; cases h; exact ⟨rfl, rfl, rfl⟩
      | some value => rw [hsel] at h; cases h; exact ⟨rfl, rfl, rfl⟩
    · cases h; exact ⟨rfl, rfl, rfl⟩

theorem saveCurrentAnswer_isSome (questions : List Question) (dom : Controls) (s : State)
    (h0 : 0 ≤ s.currentQuestionIndex)
    (h1 : s.currentQuestionIndex < (questions.length : Int)) :
    ∃ saved, saveCurrentAnswer questions dom s = some saved := by
  obtain ⟨question, hq⟩ := questionAt_isSome questions _ h0 h1
  unfold saveCurrentAnswer
  rw [hq]
  simp only
  split_ifs
  · exact ⟨_, rfl⟩
  · cases dom.selected with
    | none => exact ⟨_, rfl⟩
    | some value => exact ⟨_, rfl⟩
  · exact ⟨_, rfl⟩

theorem handleNextQuestion_below (compute : State → State) (questions : List Question)
    (dom : Controls) (s : State) (h0 : 0 ≤ s.currentQuestionIndex)
    (h1 : s.currentQuestionIndex < (questions.length : Int) - 1) :
    (handleNextQuestion compute questions dom s).currentQuestionIndex =
        s.currentQuestionIndex + 1 ∧
      (handleNextQuestion compute questions dom s).matchedJobs = s.matchedJobs ∧
      (handleNextQuestion compute questions dom s).jobs = s.jobs := by
  obtain ⟨saved, hs⟩ := saveCurrentAnswer_isSome questions dom s h0 (by omega)
  obtain ⟨e1, e2, e3⟩ := saveCurrentAnswer_frame questions dom s saved hs
  unfold handleNextQuestion
  rw [hs]
  simp only
  rw [if_pos (by rw [e1]; exact h1)]
  exact ⟨by simp [e1], e3, e2⟩

theorem handleNextQuestion_last (compute : State → State) (questions : List Question)
    (dom : Controls) (s : State) (h0 : 0 ≤ s.currentQuestionIndex)
    (h1 : s.currentQuestionIndex = (questions.length : Int) - 1) :
    ∃ saved, saveCurrentAnswer questions dom s = some saved ∧
      handleNextQuestion compute questions dom s = compute saved := by
  obtain ⟨saved, hs⟩ := saveCurrentAnswer_isSome questions dom s h0 (by omega)
  obtain ⟨e1, _, _⟩ := saveCurrentAnswer_frame questions dom s saved hs
  refine ⟨saved, hs, ?_⟩
  unfold handleNextQuestion
  rw [hs]
  simp only
  rw [if_neg (by rw [e1]; omega)]

theorem handlePrevQuestion_index (questions : List Question) (dom : Controls) (s : State) :
    (handlePrevQuestion questions dom s).jobs = s.jobs ∧
    (handlePrevQuestion questions dom s).matchedJobs = s.matchedJobs ∧
    (s.currentQuestionIndex ≤ 0 →
      (handlePrevQuestion questions dom s).currentQuestionIndex = s.currentQuestionIndex) ∧
    (0 < s.currentQuestionIndex → s.currentQuestionIndex < (questions.length : Int) →
      (handlePrevQuestion questions dom s).currentQuestionIndex =
        s.currentQuestionIndex - 1) := by
  unfold handlePrevQuestion
  cases hs : saveCurrentAnswer questions dom s with
  | none =>
    refine ⟨rfl, rfl, fun _ => rfl, ?_⟩
    intro h0 h1
    obtain ⟨saved, hsaved⟩ := saveCurrentAnswer_isSome questions dom s h0.le h1
    rw [hs] at hsaved
    exact Option.noConfusion hsaved
  | some saved =>
    obtain ⟨e1, e2, e3⟩ := saveCurrentAnswer_frame questions dom s saved hs
    simp only
    split_ifs with hpos
    · exact ⟨e2, e3, fun h => by omega, fun _ _ => by simp [e1]⟩
    · exact ⟨e2, e3, fun _ => e1, fun h => by omega⟩

theorem compute_frame (compute : State → State)
    (hc : compute = calculateMatchesA ∨ compute = calculateMatchesB) (s : State) :
    (compute s).currentQuestionIndex = s.currentQuestionIndex ∧ (compute s).jobs = s.jobs ∧
      (compute s).answers = s.answers := by
  rcases hc with rfl | rfl <;> exact ⟨rfl, rfl, rfl⟩

theorem step_invariant (compute : State → State)
    (hc : compute = calculateMatchesA ∨ compute = calculateMatchesB)
    (questions : List Question) (hN : 1 ≤ questions.length) (s : State) (e : Event)
    (h0 : 0 ≤ s.currentQuestionIndex)
    (h1 : s.currentQuestionIndex ≤ (questions.length : Int) - 1) :
    0 ≤ (step compute questions s e).currentQuestionIndex ∧
      (step compute questions s e).currentQuestionIndex ≤ (questions.length : Int) - 1 ∧
      (step compute questions s e).jobs = s.jobs := by
  have hlen : (1 : Int) ≤ (questions.length : Int) := by exact_mod_cast hN
  cases e with
  | next dom =>
    have hstep : step compute questions s (Event.next dom) =
        handleNextQuestion compute questions dom s := rfl
    rw [hstep]
    by_cases hlt : s.currentQuestionIndex < (questions.length : Int) - 1
    · obtain ⟨e1, _, e3⟩ := handleNextQuestion_below compute questions dom s h0 hlt
      rw [e1]
      exact ⟨by omega, by omega, e3⟩
    · have heq : s.currentQuestionIndex = (questions.length : Int) - 1 := by omega
      obtain ⟨saved, hs, hnext⟩ := handleNextQuestion_last compute questions dom s h0 heq
      obtain ⟨e1, e2, _⟩ := saveCurrentAnswer_frame questions dom s saved hs
      obtain ⟨c1, c2, _⟩ := compute_frame compute hc saved
      rw [hnext, c1, c2, e1, e2]
      exact ⟨h0, h1, rfl⟩
  | previous dom =>
    have hstep : step compute questions s (Event.previous dom) =
        handlePrevQuestion questions dom s := rfl
    rw [hstep]
    obtain ⟨p1, _, p3, p4⟩ := handlePrevQuestion_index questions dom s
    by_cases hpos : 0 < s.currentQuestionIndex
    · rw [p4 hpos (by omega)]
      exact ⟨by omega, by omega, p1⟩
    · rw [p3 (by omega)]
      exact ⟨h0, h1, p1⟩
  | reset =>
    have hstep : step compute questions s Event.reset = resetApplication s := rfl
    rw [hstep]
    exact ⟨le_refl _, by show (0 : Int) ≤ (questions.length : Int) - 1; omega, rfl⟩

theorem run_invariant (compute : State → State)
    (hc : compute = calculateMatchesA ∨ compute = calculateMatchesB)
    (questions : List Question) (hN : 1 ≤ questions.length) (events : List Event) :
    ∀ s : State, 0 ≤ s.currentQuestionIndex →
      s.currentQuestionIndex ≤ (questions.length : Int) - 1 →
      0 ≤ (run compute questions s events).currentQuestionIndex ∧
        (run compute questions s events).currentQuestionIndex ≤ (questions.length : Int) - 1 ∧
        (run compute questions s events).jobs = s.jobs := by
  induction events with
  | nil => intro s h0 h1; exact ⟨h0, h1, rfl⟩
  | cons e rest ih =>
    intro s h0 h1
    obtain ⟨i0, i1, ij⟩ := step_invariant compute hc questions hN s e h0 h1
    obtain ⟨r0, r1, rj⟩ := ih (step compute questions s e) i0 i1
    have hrun : run compute questions s (e :: rest) =
        run compute questions (step compute questions s e) rest := rfl
    rw [hrun]
    exact ⟨r0, r1, rj.trans ij⟩

/-- C11: for a question list of length `N ≥ 1` and the `calculateMatches` of
either variant, from any state with `currentQuestionIndex = 0` every sequence
of next, previous and start-over clicks leaves `0 ≤ currentQuestionIndex ≤
N - 1` and the catalog as it was. Previous at index `0` leaves the index `0`
and above `0` lowers it by one; next below the last index raises it by one and
leaves `matchedJobs` alone; next at index `N - 1` is `calculateMatches` run on
the state `saveCurrentAnswer` left, the index unchanged; `resetApplication`
sets index `0`, empty answers and empty `matchedJobs` and leaves `jobs`. -/
theorem C11_question_index (questions : List Question) (hN : 1 ≤ questions.length)
    (compute : State → State)
    (hc : compute = calculateMatchesA ∨ compute = calculateMatchesB) :
    (∀ (s : State) (events : List Event), s.currentQuestionIndex = 0 →
      0 ≤ (run compute questions s events).currentQuestionIndex ∧
      (run compute questions s events).currentQuestionIndex ≤ (questions.length : Int) - 1 ∧
      (run compute questions s events).jobs = s.jobs) ∧
    (∀ (s : State) (dom : Controls), s.currentQuestionIndex = 0 →
      (handlePrevQuestion questions dom s).currentQuestionIndex = 0) ∧
    (∀ (s : State) (dom : Controls), 0 < s.currentQuestionIndex →
      s.currentQuestionIndex ≤ (questions.length : Int) - 1 →
      (handlePrevQuestion questions dom s).currentQuestionIndex =
        s.currentQuestionIndex - 1) ∧
    (∀ (s : State) (dom : Controls), 0 ≤ s.currentQuestionIndex →
      s.currentQuestionIndex < (questions.length : Int) - 1 →
      (handleNextQuestion compute questions dom s).currentQuestionIndex =
        s.currentQuestionIndex + 1 ∧
      (handleNextQuestion compute questions dom s).matchedJobs = s.matchedJobs) ∧
    (∀ (s : State) (dom : Controls), s.currentQuestionIndex = (questions.length : Int) - 1 →
      ∃ saved, saveCurrentAnswer questions dom s = some saved ∧
        handleNextQuestion compute questions dom s = compute saved ∧
        (handleNextQuestion compute questions dom s).currentQuestionIndex =
          s.currentQuestionIndex) ∧
    (∀ s : State, (resetApplication s).currentQuestionIndex = 0 ∧
      (resetApplication s).answers = [] ∧ (resetApplication s).matchedJobs = [] ∧
      (resetApplication s).jobs = s.jobs) := by
  have hlen : (1 : Int) ≤ (questions.length : Int) := by exact_mod_cast hN
  refine ⟨?_, ?_, ?_, ?_, ?_, ?_⟩
  · intro s events h
    exact run_invariant compute hc questions hN events s (by omega) (by omega)
  · intro s dom h
    rw [(handlePrevQuestion_index questions dom s).2.2.1 (by omega), h]
  · intro s dom h0 h1
    exact (handlePrevQuestion_index questions dom s).2.2.2 h0 (by omega)
  · intro s dom h0 h1
    obtain ⟨e1, e2, _⟩ := handleNextQuestion_below compute questions dom s h0 h1
    exact ⟨e1, e2⟩
  · intro s dom h
    obtain ⟨saved, hs, hnext⟩ := handleNextQuestion_last compute questions dom s (by omega) h
    refine ⟨saved, hs, hnext, ?_⟩
    rw [hnext, (compute_frame compute hc saved).1,
      (saveCurrentAnswer_frame questions dom s saved hs).1]
  · intro s
    exact ⟨rfl, rfl, rfl, rfl⟩

/-- C11 on the two-step questionnaire `exQuestions` with variant A: after the
five clicks of `exEvents` from `startState` the index is within `0..1` (it is
`1`) and the catalog is the one of `startState`. -/
theorem C11_question_index_witness :
    1 ≤ exQuestions.length ∧ startState.currentQuestionIndex = 0 ∧
    (0 ≤ (run calculateMatchesA exQuestions startState exEvents).currentQuestionIndex ∧
      (run calculateMatchesA exQuestions startState exEvents).currentQuestionIndex ≤
        (exQuestions.length : Int) - 1 ∧
      (run calculateMatchesA exQuestions startState exEvents).jobs = startState.jobs) ∧
    (run calculateMatchesA exQuestions startState exEvents).currentQuestionIndex = 1 := by
  have hN : 1 ≤ exQuestions.length := by decide
  exact ⟨hN, rfl,
    (C11_question_index exQuestions hN calculateMatchesA (Or.inl rfl)).1
      startState exEvents rfl, by decide⟩

/-! ## C12: the value the slider is given -/

theorem displayCurrentQuestion_scale (questions : List Question) (s : State)
    (question : Question)
    (hq : questionAt questions s.currentQuestionIndex = some question)
    (ht : question.type = "scale") :
    (displayCurrentQuestion questions s).map (fun view => view.controls) =
      some (Rendered.scale (prefill s.answers question.field)
        (prefill s.answers question.field)) := by
  simp [displayCurrentQuestion, hq, ht]

/-- C12: `displayCurrentQuestion` gives the slider and its value display
`answers[question.field] || 5`. For a recorded answer other than `0` that is
the answer, and for no recorded answer it is `5`; but the recorded answer `0`
is falsy and is shown as `5`. On `exQuestions` with `work_environment: 0`
recorded the slider and the display get `5` (with `7` recorded they get `7`),
and a next click that saves the untouched slider replaces the `0` by `5`. -/
theorem C12_prefill_zero_shows_default :
    answerAt zeroState.answers "work_environment" = some 0 ∧
    displayCurrentQuestion exQuestions zeroState =
      some { controls := Rendered.scale 5 5, prevButton := false, lastStep := false } ∧
    displayCurrentQuestion exQuestions sevenState =
      some { controls := Rendered.scale 7 7, prevButton := false, lastStep := false } ∧
    (handleNextQuestion calculateMatchesA exQuestions { slider := 5, selected := none }
      zeroState).answers = [("work_environment", 5)] ∧
    (∀ (questions : List Question) (s : State) (question : Question) (v : Int),
      questionAt questions s.currentQuestionIndex = some question →
      question.type = "scale" → answerAt s.answers question.field = some v → v ≠ 0 →
      (displayCurrentQuestion questions s).map (fun view => view.controls) =
        some (Rendered.scale v v)) ∧
    (∀ (questions : List Question) (s : State) (question : Question),
      questionAt questions s.currentQuestionIndex = some question →
      question.type = "scale" → answerAt s.answers question.field = none →
      (displayCurrentQuestion questions s).map (fun view => view.controls) =
        some (Rendered.scale 5 5)) ∧
    (∀ (questions : List Question) (s : State) (question : Question),
      questionAt questions s.currentQuestionIndex = some question →
      question.type = "scale" → answerAt s.answers question.field = some 0 →
      (displayCurrentQuestion questions s).map (fun view => view.controls) =
        some (Rendered.scale 5 5)) := by
  refine ⟨by decide, by decide, by decide, by decide, ?_, ?_, ?_⟩
  · intro questions s question v hq ht ha hv
    rw [displayCurrentQuestion_scale questions s question hq ht]
    simp [prefill, ha, hv]
  · intro questions s question hq ht ha
    rw [displayCurrentQuestion_scale questions s question hq ht]
    simp [prefill, ha]
  · intro questions s question hq ht ha
    rw [displayCurrentQuestion_scale questions s question hq ht]
    simp [prefill, ha]

/-! ## Double arithmetic: rounding lemmas -/

theorem roundHalfEven_intCast (n : ℤ) : roundHalfEven (n : ℚ) = n := by
  simp [roundHalfEven]

theorem roundHalfEven_bounds (y : ℚ) :
    (⌊y⌋ : ℤ) ≤ roundHalfEven y ∧ roundHalfEven y ≤ ⌊y⌋ + 1 := by
  unfold roundHalfEven
  split_ifs <;> constructor <;> omega

theorem roundHalfEven_err (y : ℚ) : |(roundHalfEven y : ℚ) - y| ≤ 1 / 2 := by
  have h1 := Int.floor_le y
  have h2 := Int.lt_floor_add_one y
  unfold roundHalfEven
  rw [abs_le]
  split_ifs with ha hb hc <;> push_cast <;> constructor <;> linarith

theorem roundHalfEven_eq (y : ℚ) (m : ℤ)
    (h : |y - (m : ℚ)| < 1 / 2 ∨ (|y - (m : ℚ)| = 1 / 2 ∧ m % 2 = 0)) :
    roundHalfEven y = m := by
  rcases h with h | ⟨h, hm⟩
  · rw [abs_lt] at h
    by_cases hym : (m : ℚ) ≤ y
    · have hf : ⌊y⌋ = m := by
        rw [Int.floor_eq_iff]; constructor <;> linarith [h.1, h.2]
      unfold roundHalfEven
      rw [hf, if_pos (by linarith [h.2])]
    · have hf : ⌊y⌋ = m - 1 := by
        rw [Int.floor_eq_iff]; push_cast; constructor <;> linarith [h.1, h.2]
      unfold roundHalfEven
      rw [hf]
      push_cast
      rw [if_neg (by linarith [h.1]), if_pos (by linarith [h.1])]
      ring
  · by_cases hym : (m : ℚ) ≤ y
    · have hy : y = m + 1 / 2 := by
        rw [abs_of_nonneg (by linarith)] at h; linarith
      have hf : ⌊y⌋ = m := by
        rw [Int.floor_eq_iff]; constructor <;> linarith
      unfold roundHalfEven
      rw [hf, if_neg (by linarith), if_neg (by linarith), if_pos hm]
    · have hy : y = m - 1 / 2 := by
        rw [abs_of_neg (by linarith)] at h; linarith
      have hf : ⌊y⌋ = m - 1 := by
        rw [Int.floor_eq_iff]; push_cast; constructor <;> linarith
      unfold roundHalfEven
      rw [hf]
      push_cast
      rw [if_neg (by linarith), if_neg (by linarith), if_neg (by omega)]
      ring

theorem roundHalfEven_mono {a b : ℚ} (h : a ≤ b) : roundHalfEven a ≤ roundHalfEven b := by
  have hfl : ⌊a⌋ ≤ ⌊b⌋ := Int.floor_mono h
  rcases hfl.lt_or_eq with hlt | heq
  · have h1 := (roundHalfEven_bounds a).2
    have h2 := (roundHalfEven_bounds b).1
    omega
  · unfold roundHalfEven
    rw [heq]
    split_ifs <;> first | omega | (exfalso; linarith)

theorem two_zpow_pos (k : ℤ) : (0 : ℚ) < 2 ^ k := zpow_pos (by norm_num) k

theorem quantum_ge (x : ℚ) : -1074 ≤ quantum x := le_max_right _ _

theorem quantum_mono {x y : ℚ} (hx : 0 < x) (h : x ≤ y) : quantum x ≤ quantum y := by
  unfold quantum
  have := Int.log_mono_right (b := 2) hx h
  exact max_le_max (by omega) (le_refl _)

theorem quantum_eq (x : ℚ) (e : ℤ) (hlo : (2 : ℚ) ^ (e + 52) ≤ x) (hhi : x < (2 : ℚ) ^ (e + 53))
    (he : -1074 ≤ e) : quantum x = e := by
  have hx : 0 < x := lt_of_lt_of_le (two_zpow_pos _) hlo
  have h1 : e + 52 ≤ Int.log 2 x :=
    (Int.zpow_le_iff_le_log (b := 2) (by norm_num) hx).1 (by exact_mod_cast hlo)
  have h2 : Int.log 2 x < e + 53 :=
    (Int.lt_zpow_iff_log_lt (b := 2) (by norm_num) hx).1 (by exact_mod_cast hhi)
  unfold quantum
  have : Int.log 2 x - 52 = e := by omega
  rw [this]
  exact max_eq_left he

theorem quantum_le_of_lt (x : ℚ) (k : ℤ) (hx : 0 < x) (hhi : x < (2 : ℚ) ^ (k + 53))
    (hk : -1074 ≤ k) : quantum x ≤ k := by
  have h2 : Int.log 2 x < k + 53 :=
    (Int.lt_zpow_iff_log_lt (b := 2) (by norm_num) hx).1 (by exact_mod_cast hhi)
  unfold quantum
  exact max_le (by omega) hk

theorem roundMagnitude_zero : roundMagnitude 0 = 0 := by
  simp [roundMagnitude, roundHalfEven]

theorem roundMagnitude_nonneg (x : ℚ) (hx : 0 ≤ x) : 0 ≤ roundMagnitude x := by
  unfold roundMagnitude
  have h0 : (0 : ℚ) ≤ x / 2 ^ quantum x := div_nonneg hx (two_zpow_pos _).le
  have h1 : (0 : ℤ) ≤ roundHalfEven (x / 2 ^ quantum x) := by
    have := roundHalfEven_mono h0
    rwa [show ((0 : ℚ)) = ((0 : ℤ) : ℚ) by norm_num, roundHalfEven_intCast] at this
  exact mul_nonneg (by exact_mod_cast h1) (two_zpow_pos _).le

theorem roundMagnitude_err (x : ℚ) :
    |roundMagnitude x - x| ≤ 2 ^ quantum x / 2 := by
  unfold roundMagnitude
  have hq := two_zpow_pos (quantum x)
  have h := roundHalfEven_err (x / 2 ^ quantum x)
  have e : (roundHalfEven (x / 2 ^ quantum x) : ℚ) * 2 ^ quantum x - x =
      ((roundHalfEven (x / 2 ^ quantum x) : ℚ) - x / 2 ^ quantum x) * 2 ^ quantum x := by
    field_simp
  rw [e, abs_mul, abs_of_pos hq]
  calc |(roundHalfEven (x / 2 ^ quantum x) : ℚ) - x / 2 ^ quantum x| * 2 ^ quantum x
      ≤ 1 / 2 * 2 ^ quantum x := mul_le_mul_of_nonneg_right h hq.le
    _ = 2 ^ quantum x / 2 := by ring

/-- A value `m * 2 ^ e` with `0 ≤ m < 2 ^ 53` and `e ≥ -1074` is a double. -/
theorem roundMagnitude_fixed (m : ℕ) (e : ℤ) (hm : m < 2 ^ 53) (he : -1074 ≤ e) :
    roundMagnitude ((m : ℚ) * 2 ^ e) = (m : ℚ) * 2 ^ e := by
  rcases Nat.eq_zero_or_pos m with rfl | hpos
  · simp [roundMagnitude_zero]
  have hx : (0 : ℚ) < (m : ℚ) * 2 ^ e := mul_pos (by exact_mod_cast hpos) (two_zpow_pos _)
  have hlt : (m : ℚ) * 2 ^ e < 2 ^ (e + 53) := by
    rw [zpow_add₀ (by norm_num : (2 : ℚ) ≠ 0), mul_comm ((2 : ℚ) ^ e)]
    apply mul_lt_mul_of_pos_right _ (two_zpow_pos _)
    have : (m : ℚ) < 2 ^ 53 := by exact_mod_cast hm
    have h53 : (2 : ℚ) ^ (53 : ℤ) = 2 ^ 53 := by norm_num
    rw [h53]
    exact this
  have hq : quantum ((m : ℚ) * 2 ^ e) ≤ e := quantum_le_of_lt _ e hx hlt he
  obtain ⟨d, hd⟩ := Int.le.dest hq
  unfold roundMagnitude
  generalize quantum ((m : ℚ) * 2 ^ e) = q at hd
  have hqpos := two_zpow_pos q
  have h2e : (2 : ℚ) ^ e = 2 ^ q * 2 ^ d := by
    rw [← hd, zpow_add₀ (by norm_num : (2 : ℚ) ≠ 0), zpow_natCast]
  have key : (m : ℚ) * 2 ^ e / 2 ^ q = ((m * 2 ^ d : ℕ) : ℤ) := by
    rw [h2e]
    field_simp
    ring
  rw [key, roundHalfEven_intCast, h2e]
  push_cast
  ring

theorem roundHalfEven_le_int (y : ℚ) (n : ℤ) (h : y ≤ (n : ℚ)) : roundHalfEven y ≤ n := by
  have := roundHalfEven_mono h
  rwa [roundHalfEven_intCast] at this

theorem int_le_roundHalfEven (y : ℚ) (n : ℤ) (h : (n : ℚ) ≤ y) : n ≤ roundHalfEven y := by
  have := roundHalfEven_mono h
  rwa [roundHalfEven_intCast] at this

theorem two_zpow_sub_cast (k q : ℤ) (h : q ≤ k) :
    ∃ n : ℤ, (2 : ℚ) ^ k = (n : ℚ) * 2 ^ q := by
  obtain ⟨d, hd⟩ := Int.le.dest h
  refine ⟨2 ^ d, ?_⟩
  rw [← hd, zpow_add₀ (by norm_num : (2 : ℚ) ≠ 0), zpow_natCast]
  push_cast
  ring

theorem roundMagnitude_le_pow (x : ℚ) (k : ℤ) (hx : x ≤ 2 ^ k) (hq : quantum x ≤ k) :
    roundMagnitude x ≤ 2 ^ k := by
  obtain ⟨n, hn⟩ := two_zpow_sub_cast k (quantum x) hq
  have hqpos := two_zpow_pos (quantum x)
  unfold roundMagnitude
  rw [hn]
  apply mul_le_mul_of_nonneg_right _ hqpos.le
  have : roundHalfEven (x / 2 ^ quantum x) ≤ n := by
    apply roundHalfEven_le_int
    rw [div_le_iff₀ hqpos, ← hn]
    exact hx
  exact_mod_cast this

theorem pow_le_roundMagnitude (y : ℚ) (k : ℤ) (hy : 2 ^ k ≤ y) (hq : quantum y ≤ k) :
    2 ^ k ≤ roundMagnitude y := by
  obtain ⟨n, hn⟩ := two_zpow_sub_cast k (quantum y) hq
  have hqpos := two_zpow_pos (quantum y)
  unfold roundMagnitude
  rw [hn]
  apply mul_le_mul_of_nonneg_right _ hqpos.le
  have : n ≤ roundHalfEven (y / 2 ^ quantum y) := by
    apply int_le_roundHalfEven
    rw [le_div_iff₀ hqpos, ← hn]
    exact hy
  exact_mod_cast this

theorem roundMagnitude_mono {x y : ℚ} (hx : 0 ≤ x) (h : x ≤ y) :
    roundMagnitude x ≤ roundMagnitude y := by
  rcases hx.eq_or_lt with rfl | hpos
  · rw [roundMagnitude_zero]; exact roundMagnitude_nonneg y h
  have hypos : 0 < y := lt_of_lt_of_le hpos h
  have hq := quantum_mono hpos h
  rcases hq.eq_or_lt with heq | hlt
  · unfold roundMagnitude
    rw [heq]
    have hqpos := two_zpow_pos (quantum y)
    apply mul_le_mul_of_nonneg_right _ hqpos.le
    have : roundHalfEven (x / 2 ^ quantum y) ≤ roundHalfEven (y / 2 ^ quantum y) :=
      roundHalfEven_mono (div_le_div_of_nonneg_right h hqpos.le)
    exact_mod_cast this
  · have hqx := quantum_ge x
    have hqy : quantum y = Int.log 2 y - 52 := by
      unfold quantum at hlt hqx ⊢
      rcases max_cases (Int.log 2 y - 52) (-1074) with ⟨h1, _⟩ | ⟨h1, _⟩
      · exact h1
      · rw [h1] at hlt; omega
    have hlogx : Int.log 2 x - 52 ≤ quantum x := le_max_left _ _
    have hB : (2 : ℚ) ^ (quantum y + 52) ≤ y := by
      have := Int.zpow_log_le_self (b := 2) (r := y) (by norm_num) hypos
      rw [hqy]
      simpa using this
    have hxB : x ≤ (2 : ℚ) ^ (quantum y + 52) := by
      have h1 := Int.lt_zpow_succ_log_self (b := 2) (by norm_num) x
      have h2 : ((2 : ℕ) : ℚ) ^ (Int.log 2 x + 1) ≤ ((2 : ℕ) : ℚ) ^ (quantum y + 52) :=
        zpow_le_zpow_right₀ (by norm_num) (by omega)
      have h3 := lt_of_lt_of_le h1 h2
      simpa using h3.le
    exact le_trans (roundMagnitude_le_pow x _ hxB (by omega))
      (pow_le_roundMagnitude y _ hB (by omega))

theorem toDouble_of_nonneg {x : ℚ} (hx : 0 ≤ x) : toDouble x = roundMagnitude x := by
  simp [toDouble, hx]

theorem toDouble_zero : toDouble 0 = 0 := by
  rw [toDouble_of_nonneg (le_refl _), roundMagnitude_zero]

theorem toDouble_neg (x : ℚ) : toDouble (-x) = -toDouble x := by
  rcases lt_trichotomy x 0 with h | rfl | h
  · have h1 : ¬ 0 ≤ x := not_le.2 h
    have h2 : (0 : ℚ) ≤ -x := by linarith
    simp [toDouble, h1, h2]
  · simp [toDouble_zero]
  · have h1 : ¬ (0 : ℚ) ≤ -x := by linarith
    have h2 : (0 : ℚ) ≤ x := h.le
    simp [toDouble, h1, h2]

theorem toDouble_nonneg {x : ℚ} (hx : 0 ≤ x) : 0 ≤ toDouble x := by
  rw [toDouble_of_nonneg hx]; exact roundMagnitude_nonneg x hx

theorem toDouble_mono {x y : ℚ} (h : x ≤ y) : toDouble x ≤ toDouble y := by
  by_cases hx : 0 ≤ x
  · rw [toDouble_of_nonneg hx, toDouble_of_nonneg (le_trans hx h)]
    exact roundMagnitude_mono hx h
  · have hnx : (0 : ℚ) ≤ -x := by linarith
    by_cases hy : 0 ≤ y
    · have h1 : toDouble x = -toDouble (-x) := by rw [toDouble_neg, neg_neg]
      have h2 := toDouble_nonneg hnx
      have h3 := toDouble_nonneg hy
      linarith
    · have hny : (0 : ℚ) ≤ -y := by linarith
      have h1 : toDouble x = -toDouble (-x) := by rw [toDouble_neg, neg_neg]
      have h2 : toDouble y = -toDouble (-y) := by rw [toDouble_neg, neg_neg]
      have h3 : toDouble (-y) ≤ toDouble (-x) := by
        rw [toDouble_of_nonneg hny, toDouble_of_nonneg hnx]
        exact roundMagnitude_mono hny (by linarith)
      linarith

theorem abs_toDouble (x : ℚ) : |toDouble x| = toDouble |x| := by
  by_cases hx : 0 ≤ x
  · rw [abs_of_nonneg hx, abs_of_nonneg (toDouble_nonneg hx)]
  · have hnx : (0 : ℚ) ≤ -x := by linarith
    have h1 : toDouble x = -toDouble (-x) := by rw [toDouble_neg, neg_neg]
    rw [abs_of_neg (not_le.1 hx), h1, abs_neg, abs_of_nonneg (toDouble_nonneg hnx)]

theorem toDouble_err (x : ℚ) : |toDouble x - x| ≤ 2 ^ quantum |x| / 2 := by
  by_cases hx : 0 ≤ x
  · rw [toDouble_of_nonneg hx, abs_of_nonneg hx]
    exact roundMagnitude_err x
  · have hnx : (0 : ℚ) ≤ -x := by linarith
    have h1 : toDouble x = -toDouble (-x) := by rw [toDouble_neg, neg_neg]
    rw [h1, toDouble_of_nonneg hnx, abs_of_neg (not_le.1 hx)]
    have := roundMagnitude_err (-x)
    rw [show -roundMagnitude (-x) - x = -(roundMagnitude (-x) - -x) by ring, abs_neg]
    exact this

/-- Below `128` a double is within `2 ^ (-47)` of the number it rounds. -/
theorem toDouble_err_small (x : ℚ) (hx : |x| < 128) : |toDouble x - x| ≤ 2 ^ (-47 : ℤ) := by
  have hq : quantum |x| ≤ -46 := by
    rcases (abs_nonneg x).eq_or_lt with h0 | hpos
    · rw [← h0]
      simp [quantum, Int.log_zero_right]
    · exact quantum_le_of_lt _ _ hpos (by norm_num; exact hx) (by norm_num)
  have h1 : (2 : ℚ) ^ quantum |x| ≤ 2 ^ (-46 : ℤ) := zpow_le_zpow_right₀ (by norm_num) hq
  have h2 : (2 : ℚ) ^ (-46 : ℤ) / 2 = 2 ^ (-47 : ℤ) := by norm_num
  calc |toDouble x - x| ≤ 2 ^ quantum |x| / 2 := toDouble_err x
    _ ≤ 2 ^ (-46 : ℤ) / 2 := div_le_div_of_nonneg_right h1 (by norm_num)
    _ = 2 ^ (-47 : ℤ) := h2

theorem toDouble_fixed (m : ℤ) (e : ℤ) (hm : |m| < 2 ^ 53) (he : -1074 ≤ e) :
    toDouble ((m : ℚ) * 2 ^ e) = (m : ℚ) * 2 ^ e := by
  have hnat : m.natAbs < 2 ^ 53 := by
    have : (m.natAbs : ℤ) < 2 ^ 53 := by rw [Int.natCast_natAbs]; exact hm
    exact_mod_cast this
  have hfix := roundMagnitude_fixed m.natAbs e hnat he
  have hcast : ((m.natAbs : ℕ) : ℚ) = |(m : ℚ)| := by
    rw [Nat.cast_natAbs, Int.cast_abs]
  rw [hcast] at hfix
  by_cases h0 : 0 ≤ m
  · have h0q : (0 : ℚ) ≤ (m : ℚ) := by exact_mod_cast h0
    rw [abs_of_nonneg h0q] at hfix
    rw [toDouble_of_nonneg (mul_nonneg h0q (two_zpow_pos e).le), hfix]
  · have h0q : (m : ℚ) < 0 := by exact_mod_cast (not_le.1 h0)
    rw [abs_of_neg h0q] at hfix
    have h1 : toDouble ((m : ℚ) * 2 ^ e) = -toDouble (-(m : ℚ) * 2 ^ e) := by
      rw [← toDouble_neg]; ring_nf
    have hnn : (0 : ℚ) ≤ -(m : ℚ) * 2 ^ e := mul_nonneg (by linarith) (two_zpow_pos e).le
    rw [h1, toDouble_of_nonneg hnn, hfix]
    ring

theorem toDouble_intCast (n : ℤ) (hn : |n| < 2 ^ 53) : toDouble (n : ℚ) = n := by
  have := toDouble_fixed n 0 hn (by norm_num)
  simpa using this

theorem roundMagnitude_idem (x : ℚ) (hx : 0 ≤ x) :
    roundMagnitude (roundMagnitude x) = roundMagnitude x := by
  have hqpos := two_zpow_pos (quantum x)
  have hM0 : (0 : ℤ) ≤ roundHalfEven (x / 2 ^ quantum x) :=
    int_le_roundHalfEven _ 0 (by simpa using div_nonneg hx hqpos.le)
  have hM1 : roundHalfEven (x / 2 ^ quantum x) ≤ 2 ^ 53 := by
    apply roundHalfEven_le_int
    rw [div_le_iff₀ hqpos]
    have h1 := Int.lt_zpow_succ_log_self (b := 2) (by norm_num) x
    have hlog : Int.log 2 x - 52 ≤ quantum x := le_max_left _ _
    have h2 : ((2 : ℕ) : ℚ) ^ (Int.log 2 x + 1) ≤ ((2 : ℕ) : ℚ) ^ (quantum x + 53) :=
      zpow_le_zpow_right₀ (by norm_num) (by omega)
    have h3 := (lt_of_lt_of_le h1 h2).le
    rw [zpow_add₀ (by norm_num)] at h3
    have h53 : (((2 : ℕ) : ℚ)) ^ (53 : ℤ) = (((2 ^ 53 : ℤ)) : ℚ) := by norm_num
    rw [h53] at h3
    simp only [Nat.cast_ofNat] at h3
    linarith
  obtain ⟨M, hM⟩ := Int.eq_ofNat_of_zero_le hM0
  have hdef : roundMagnitude x = (M : ℚ) * 2 ^ quantum x := by
    unfold roundMagnitude
    rw [hM]
    norm_cast
  rw [hdef]
  have hMle : M ≤ 2 ^ 53 := by
    have : (M : ℤ) ≤ 2 ^ 53 := by rw [← hM]; exact hM1
    exact_mod_cast this
  rcases hMle.eq_or_lt with heq | hlt
  · have h2 : (M : ℚ) * 2 ^ quantum x = ((2 ^ 52 : ℕ) : ℚ) * 2 ^ (quantum x + 1) := by
      rw [heq, zpow_add₀ (by norm_num : (2 : ℚ) ≠ 0)]
      push_cast
      ring
    rw [h2]
    exact roundMagnitude_fixed (2 ^ 52) (quantum x + 1) (by norm_num)
      (by have := quantum_ge x; omega)
  · exact roundMagnitude_fixed M (quantum x) hlt (quantum_ge x)

theorem toDouble_idem (x : ℚ) : toDouble (toDouble x) = toDouble x := by
  by_cases hx : 0 ≤ x
  · rw [toDouble_of_nonneg hx, toDouble_of_nonneg (roundMagnitude_nonneg x hx)]
    exact roundMagnitude_idem x hx
  · have hnx : (0 : ℚ) ≤ -x := by linarith
    have h1 : toDouble x = -toDouble (-x) := by rw [toDouble_neg, neg_neg]
    rw [h1, toDouble_neg, toDouble_of_nonneg hnx,
      toDouble_of_nonneg (roundMagnitude_nonneg _ hnx), roundMagnitude_idem _ hnx]

/-- Evaluation of `toDouble` at a positive number, given the binade and the
nearest mantissa (a tie going to the even one). -/
theorem toDouble_eval (x : ℚ) (m e : ℤ) (hlo : (2 : ℚ) ^ (e + 52) ≤ x)
    (hhi : x < (2 : ℚ) ^ (e + 53)) (he : -1074 ≤ e)
    (hc : |x / 2 ^ e - (m : ℚ)| < 1 / 2 ∨ (|x / 2 ^ e - (m : ℚ)| = 1 / 2 ∧ m % 2 = 0)) :
    toDouble x = (m : ℚ) * 2 ^ e := by
  have hx : 0 < x := lt_of_lt_of_le (two_zpow_pos _) hlo
  rw [toDouble_of_nonneg hx.le]
  unfold roundMagnitude
  rw [quantum_eq x e hlo hhi he, roundHalfEven_eq _ m hc]

/-! ## The double scorer: shared lemmas -/

theorem toDouble_natCast (n : ℕ) (hn : n < 2 ^ 53) : toDouble (n : ℚ) = n := by
  have h := toDouble_intCast (n : ℤ) (by rw [abs_of_nonneg (by positivity)]; exact_mod_cast hn)
  simpa using h

theorem toDouble_one : toDouble 1 = 1 := by
  have := toDouble_natCast 1 (by norm_num)
  simpa using this

theorem toDouble_dyadic (x : ℚ) (m e : ℤ) (hx : x = (m : ℚ) * 2 ^ e) (hm : |m| < 2 ^ 53)
    (he : -1074 ≤ e) : toDouble x = x := by
  rw [hx]; exact toDouble_fixed m e hm he

theorem toDouble_factorScore64 (v : ℚ) (a : Int) :
    toDouble (factorScore64 v a) = factorScore64 v a := by
  unfold factorScore64 subD
  exact toDouble_idem _

theorem lookup_map_toDouble (table : List (String × ℚ)) (field : String) :
    (table.map (fun p => (p.1, toDouble p.2))).lookup field =
      (table.lookup field).map toDouble := by
  induction table with
  | nil => rfl
  | cons p t ih =>
    obtain ⟨k, w⟩ := p
    simp only [List.map_cons, List.lookup]
    cases hk : (field == k) with
    | true => rfl
    | false => exact ih

theorem weightIn_weights64_unit (field : String)
    (h : weights.lookup field = some 1 ∨ weights.lookup field = none) :
    weightIn weights64 field = 1 := by
  unfold weightIn weights64
  rw [lookup_map_toDouble]
  rcases h with h | h <;> simp [h, toDouble_one]

theorem stepA64_unit (table : List (String × ℚ)) (job : Job) (acc : ℚ × ℚ)
    (entry : String × Int)
    (h : ∀ v : ℚ, job.get entry.1 = some v → weightIn table entry.1 = 1) :
    stepA64 table job acc entry = stepB64 job acc entry := by
  unfold stepA64 stepB64
  cases hget : job.get entry.1 with
  | none => rfl
  | some v =>
    simp only
    rw [h v hget]
    unfold mulD
    rw [mul_one, toDouble_factorScore64]

theorem foldl_stepA64_unit (table : List (String × ℚ)) (job : Job) (answers : Answers)
    (h : ∀ e ∈ answers, ∀ v : ℚ, job.get e.1 = some v → weightIn table e.1 = 1) :
    ∀ acc : ℚ × ℚ, answers.foldl (stepA64 table job) acc = answers.foldl (stepB64 job) acc := by
  induction answers with
  | nil => intro acc; rfl
  | cons e t ih =>
    intro acc
    rw [List.foldl_cons, List.foldl_cons, stepA64_unit table job acc e (h e (List.mem_cons_self _ _))]
    exact ih (fun e' he' => h e' (List.mem_cons_of_mem _ he')) _

theorem finalScoreWith64_unit (table : List (String × ℚ)) (answers : Answers) (job : Job)
    (h : ∀ t ∈ contributing answers job, weightIn table t.1 = 1) :
    finalScoreWith64 table answers job = finalScoreB64 answers job := by
  have hloop : loopA64 table answers job = loopB64 answers job := by
    unfold loopA64 loopB64
    apply foldl_stepA64_unit
    intro e he v hv
    exact h (e.1, v, e.2) ((mem_contributing answers job _).2 ⟨he, hv⟩)
  unfold finalScoreWith64 finalScoreB64
  rw [hloop]

/-! ## The double scorer on the integer scale -/

/-- Rounding a quotient `T / n` of small naturals to a double does not move
it across a half-integer, so `Math.round` sees the exact quotient. -/
theorem mathRound_toDouble_ratio (T n : ℕ) (hn : 0 < n) (hn46 : n < 2 ^ 46)
    (hT : T ≤ 100 * n) :
    mathRound (toDouble ((T : ℚ) / n)) = mathRound ((T : ℚ) / n) := by
  have hnq : (0 : ℚ) < (n : ℚ) := by exact_mod_cast hn
  have h2n : (0 : ℚ) < 2 * (n : ℚ) := by linarith
  have hTq : (T : ℚ) ≤ 100 * n := by exact_mod_cast hT
  have hq0 : (0 : ℚ) ≤ (T : ℚ) / n := div_nonneg (by positivity) hnq.le
  have hq100 : (T : ℚ) / n ≤ 100 := by rw [div_le_iff₀ hnq]; exact hTq
  have herr := toDouble_err_small ((T : ℚ) / n)
    (by rw [abs_of_nonneg hq0]; linarith)
  rw [abs_le] at herr
  have hk1 := Int.floor_le ((T : ℚ) / n + 1 / 2)
  have hk2 := Int.lt_floor_add_one ((T : ℚ) / n + 1 / 2)
  have hqn : (T : ℚ) / n * n = T := div_mul_cancel₀ _ hnq.ne'
  have hsmall : (2 : ℚ) ^ (-47 : ℤ) * (2 * n) < 1 := by
    have : (n : ℚ) < 2 ^ 46 := by exact_mod_cast hn46
    have h47 : (2 : ℚ) ^ (-47 : ℤ) = 1 / 2 ^ 47 := by norm_num
    rw [h47]
    have : (2 : ℚ) * n < 2 ^ 47 := by linarith
    rw [div_mul_eq_mul_div, one_mul, div_lt_one (by norm_num)]
    exact this
  unfold mathRound
  generalize (2 : ℚ) ^ (-47 : ℤ) = ε at herr hsmall
  generalize hkdef : ⌊(T : ℚ) / n + 1 / 2⌋ = k at hk1 hk2
  generalize hqdef : (T : ℚ) / n = q at *
  have hk_lo : (0 : ℤ) ≤ k := by
    have : (-1 : ℚ) < (k : ℚ) := by linarith
    have : (-1 : ℤ) < k := by exact_mod_cast this
    omega
  have hk_hi : k ≤ 100 := by
    have : (k : ℚ) < 101 := by linarith
    have : k < 101 := by exact_mod_cast this
    omega
  -- the two integer inequalities behind the floor
  have hi1 : k * (2 * (n : ℤ)) ≤ 2 * (T : ℤ) + n := by
    have : (k : ℚ) * (2 * n) ≤ 2 * T + n := by
      have := mul_le_mul_of_nonneg_right hk1 h2n.le
      calc (k : ℚ) * (2 * n) ≤ (q + 1 / 2) * (2 * n) := this
        _ = 2 * (q * n) + n := by ring
        _ = 2 * T + n := by rw [hqn]
    exact_mod_cast this
  have hi2 : 2 * (T : ℤ) + n < (k + 1) * (2 * (n : ℤ)) := by
    have : 2 * (T : ℚ) + n < ((k : ℚ) + 1) * (2 * n) := by
      have := mul_lt_mul_of_pos_right hk2 h2n
      calc 2 * (T : ℚ) + n = 2 * (q * n) + n := by rw [hqn]
        _ = (q + 1 / 2) * (2 * n) := by ring
        _ < ((k : ℚ) + 1) * (2 * n) := this
    exact_mod_cast this
  rw [Int.floor_eq_iff]
  constructor
  · rcases hi1.eq_or_lt with heq | hlt
    · have hqk : q = ((2 * k - 1 : ℤ) : ℚ) * 2 ^ (-1 : ℤ) := by
        have h1 : (k : ℚ) * (2 * n) = 2 * T + n := by exact_mod_cast heq
        have h2 : q * (2 * n) = ((k : ℚ) - 1 / 2) * (2 * n) := by
          calc q * (2 * n) = 2 * (q * n) := by ring
            _ = 2 * T := by rw [hqn]
            _ = (k : ℚ) * (2 * n) - n := by rw [h1]; ring
            _ = ((k : ℚ) - 1 / 2) * (2 * n) := by ring
        have h3 : q = (k : ℚ) - 1 / 2 := mul_right_cancel₀ h2n.ne' h2
        rw [h3]
        push_cast
        norm_num
        ring
      have hfix : toDouble q = q :=
        toDouble_dyadic q (2 * k - 1) (-1) hqk
          (by rw [abs_lt]; constructor <;> omega) (by norm_num)
      rw [hfix]
      exact hk1
    · have h1 : k * (2 * (n : ℤ)) + 1 ≤ 2 * (T : ℤ) + n := hlt
      have h2 : (k : ℚ) * (2 * n) + 1 ≤ 2 * T + n := by exact_mod_cast h1
      have h3 : ((k : ℚ) + ε) * (2 * n) < (q + 1 / 2) * (2 * n) := by
        calc ((k : ℚ) + ε) * (2 * n)
            = (k : ℚ) * (2 * n) + ε * (2 * n) := by ring
          _ < (k : ℚ) * (2 * n) + 1 := by linarith
          _ ≤ 2 * T + n := h2
          _ = 2 * (q * n) + n := by rw [hqn]
          _ = (q + 1 / 2) * (2 * n) := by ring
      have h4 : (k : ℚ) + ε < q + 1 / 2 := lt_of_mul_lt_mul_right h3 h2n.le
      linarith [herr.1]
  · have h1 : 2 * (T : ℤ) + n + 1 ≤ (k + 1) * (2 * (n : ℤ)) := hi2
    have h2 : 2 * (T : ℚ) + n + 1 ≤ ((k : ℚ) + 1) * (2 * n) := by exact_mod_cast h1
    have h3 : (q + 1 / 2 + ε) * (2 * n) < ((k : ℚ) + 1) * (2 * n) := by
      calc (q + 1 / 2 + ε) * (2 * n)
          = 2 * (q * n) + n + ε * (2 * n) := by ring
        _ = 2 * T + n + ε * (2 * n) := by rw [hqn]
        _ < 2 * T + n + 1 := by linarith
        _ ≤ ((k : ℚ) + 1) * (2 * n) := h2
    have h4 : q + 1 / 2 + ε < (k : ℚ) + 1 := lt_of_mul_lt_mul_right h3 h2n.le
    linarith [herr.2]

theorem factorScore64_onScale (v : ℚ) (a : Int) (h : OnScale (("", v, a) : String × ℚ × Int)) :
    ∃ f : ℕ, f ≤ 100 ∧ factorScore64 v a = (f : ℚ) ∧ factorScore v a = (f : ℚ) := by
  obtain ⟨⟨n, hv, hn0, hn10⟩, ha0, ha10⟩ := h
  simp only at hv ha0 ha10
  subst hv
  have hd0 : 0 ≤ |n - a| := abs_nonneg _
  have hd10 : |n - a| ≤ 10 := by rw [abs_le]; constructor <;> omega
  refine ⟨(100 - |n - a| * 10).toNat, by omega, ?_, ?_⟩
  · unfold factorScore64
    have e1 : subD (n : ℚ) (a : ℚ) = ((n - a : ℤ) : ℚ) := by
      unfold subD
      rw [← Int.cast_sub]
      exact toDouble_intCast _ (by rw [abs_lt]; constructor <;> omega)
    have e2 : mulD |((n - a : ℤ) : ℚ)| 10 = ((|n - a| * 10 : ℤ) : ℚ) := by
      unfold mulD
      rw [← Int.cast_abs, show ((|n - a| : ℤ) : ℚ) * 10 = ((|n - a| * 10 : ℤ) : ℚ) by push_cast; ring]
      exact toDouble_intCast _ (by rw [abs_lt]; constructor <;> omega)
    have e3 : subD 100 ((|n - a| * 10 : ℤ) : ℚ) = ((100 - |n - a| * 10 : ℤ) : ℚ) := by
      unfold subD
      rw [show (100 : ℚ) - ((|n - a| * 10 : ℤ) : ℚ) = ((100 - |n - a| * 10 : ℤ) : ℚ) by push_cast; ring]
      exact toDouble_intCast _ (by rw [abs_lt]; constructor <;> omega)
    rw [e1, e2, e3]
    have : ((100 - |n - a| * 10).toNat : ℤ) = 100 - |n - a| * 10 := Int.toNat_of_nonneg (by omega)
    exact_mod_cast this.symm
  · unfold factorScore
    have : ((100 - |n - a| * 10).toNat : ℤ) = 100 - |n - a| * 10 := Int.toNat_of_nonneg (by omega)
    have h2 : (((100 - |n - a| * 10).toNat : ℤ) : ℚ) = ((100 - |n - a| * 10 : ℤ) : ℚ) := by
      rw [this]
    rw [show (((100 - |n - a| * 10).toNat : ℕ) : ℚ) = (((100 - |n - a| * 10).toNat : ℤ) : ℚ) by
      norm_cast, h2]
    push_cast
    ring

theorem foldl_stepB64 (job : Job) (answers : Answers) :
    ∀ acc : ℚ × ℚ, answers.foldl (stepB64 job) acc =
      (contributing answers job).foldl
        (fun acc t => (addD acc.1 (factorScore64 t.2.1 t.2.2), addD acc.2 1)) acc := by
  induction answers with
  | nil => intro acc; rfl
  | cons e t ih =>
    intro acc
    rw [List.foldl_cons, ih]
    cases hget : job.get e.1 with
    | none => simp [stepB64, contributing, hget]
    | some v => simp [stepB64, contributing, hget]

theorem foldB64_onScale (c : List (String × ℚ × Int)) (hc : ∀ t ∈ c, OnScale t) :
    ∀ S k : ℕ, S ≤ 100 * k → k + c.length < 2 ^ 46 →
      ∃ T : ℕ, T ≤ 100 * (k + c.length) ∧
        (T : ℚ) = (S : ℚ) + (c.map (fun t => factorScore t.2.1 t.2.2)).sum ∧
        c.foldl (fun acc t => (addD acc.1 (factorScore64 t.2.1 t.2.2), addD acc.2 1))
          ((S : ℚ), (k : ℚ)) = ((T : ℚ), ((k + c.length : ℕ) : ℚ)) := by
  induction c with
  | nil =>
    intro S k hS _
    exact ⟨S, by simpa using hS, by simp, by simp⟩
  | cons t c ih =>
    intro S k hS hk
    have hlen : (t :: c).length = c.length + 1 := rfl
    rw [hlen] at hk
    have ht : OnScale (("", t.2.1, t.2.2) : String × ℚ × Int) := hc t (List.mem_cons_self _ _)
    obtain ⟨f, hf100, hf64, hf⟩ := factorScore64_onScale t.2.1 t.2.2 ht
    have hsum : addD (S : ℚ) (factorScore64 t.2.1 t.2.2) = ((S + f : ℕ) : ℚ) := by
      unfold addD
      rw [hf64, ← Nat.cast_add]
      exact toDouble_natCast _ (by
        have : (2 : ℕ) ^ 53 = 128 * 2 ^ 46 := by norm_num
        omega)
    have hcnt : addD (k : ℚ) 1 = ((k + 1 : ℕ) : ℚ) := by
      unfold addD
      rw [show (k : ℚ) + 1 = ((k + 1 : ℕ) : ℚ) by push_cast; ring]
      exact toDouble_natCast _ (by
        have : (2 : ℕ) ^ 53 = 128 * 2 ^ 46 := by norm_num
        omega)
    obtain ⟨T, hT, hTsum, hfold⟩ :=
      ih (fun t' ht' => hc t' (List.mem_cons_of_mem _ ht')) (S + f) (k + 1) (by omega) (by omega)
    refine ⟨T, by rw [hlen]; omega, ?_, ?_⟩
    · rw [hTsum, List.map_cons, List.sum_cons, hf]
      push_cast
      ring
    · rw [List.foldl_cons]
      simp only
      rw [hsum, hcnt, hfold, hlen]
      congr 2
      omega

/-- On the integer scale, with fewer than `2 ^ 46` answers, the double
arithmetic of variant B is exact. -/
theorem finalScoreB64_onScale (answers : Answers) (job : Job)
    (hc : ∀ t ∈ contributing answers job, OnScale t)
    (hlen : (contributing answers job).length < 2 ^ 46) :
    finalScoreB64 answers job = finalScoreB answers job := by
  obtain ⟨T, hT, hTsum, hfold⟩ := foldB64_onScale (contributing answers job) hc 0 0
    (le_refl _) (by simpa using hlen)
  have h64 : loopB64 answers job = ((T : ℚ), ((contributing answers job).length : ℚ)) := by
    unfold loopB64
    rw [foldl_stepB64]
    simpa using hfold
  have hex : loopB answers job = ((T : ℚ), (contributing answers job).length) := by
    rw [loopB_eq, hTsum]
    simp
  unfold finalScoreB64 finalScoreB
  rw [h64, hex]
  simp only
  by_cases hpos : 0 < (contributing answers job).length
  · have hq : (0 : ℚ) < ((contributing answers job).length : ℚ) := by exact_mod_cast hpos
    rw [if_pos hq, if_pos hpos]
    unfold divD
    exact mathRound_toDouble_ratio T _ hpos hlen (by simpa using hT)
  · have hq : ¬ (0 : ℚ) < ((contributing answers job).length : ℚ) := by
      intro h; exact hpos (by exact_mod_cast h)
    rw [if_neg hq, if_neg hpos]

/-! ## Variant A in double arithmetic -/

theorem toDouble_half : toDouble (1 / 2) = 1 / 2 :=
  toDouble_dyadic (1 / 2) 1 (-1) (by norm_num) (by norm_num) (by norm_num)

theorem weights_range : ∀ p ∈ weights, 1 / 2 ≤ p.2 ∧ p.2 ≤ 1 := by
  intro p hp
  simp only [weights, List.mem_cons, List.mem_singleton, List.not_mem_nil, or_false] at hp
  rcases hp with h | h | h | h | h | h | h | h | h | h <;> subst h <;> norm_num

theorem toDouble_range (x : ℚ) (h : 1 / 2 ≤ x ∧ x ≤ 1) :
    1 / 2 ≤ toDouble x ∧ toDouble x ≤ 1 := by
  have h1 := toDouble_mono h.1
  have h2 := toDouble_mono h.2
  rw [toDouble_half] at h1
  rw [toDouble_one] at h2
  exact ⟨h1, h2⟩

theorem weightIn_range (table : List (String × ℚ)) (h : ∀ p ∈ table, 1 / 2 ≤ p.2 ∧ p.2 ≤ 1)
    (field : String) : 1 / 2 ≤ weightIn table field ∧ weightIn table field ≤ 1 := by
  unfold weightIn
  induction table with
  | nil => simp [List.lookup]; norm_num
  | cons p t ih =>
    obtain ⟨k, w⟩ := p
    have hw := h (k, w) (List.mem_cons_self _ _)
    simp only [List.lookup]
    cases hk : (field == k) with
    | true =>
      simp only
      split_ifs with h0
      · norm_num
      · exact hw
    | false => exact ih (fun q hq => h q (List.mem_cons_of_mem _ hq))

theorem weights64_range : ∀ p ∈ weights64, 1 / 2 ≤ p.2 ∧ p.2 ≤ 1 := by
  intro p hp
  unfold weights64 at hp
  obtain ⟨q, hq, rfl⟩ := List.mem_map.1 hp
  exact toDouble_range q.2 (weights_range q hq)

theorem weightIn_weights64_range (field : String) :
    1 / 2 ≤ weightIn weights64 field ∧ weightIn weights64 field ≤ 1 :=
  weightIn_range weights64 weights64_range field

theorem specWeight64_eq : specWeight64 = weightIn weights64 := by
  funext field
  unfold specWeight64 specWeight weightIn weights64
  rw [lookup_map_toDouble]
  cases hl : weights.lookup field with
  | none => simp [toDouble_one]
  | some w =>
    have hmem : (field, w) ∈ weights := by
      have : ∀ (l : List (String × ℚ)), l.lookup field = some w → (field, w) ∈ l := by
        intro l
        induction l with
        | nil => intro h; simp [List.lookup] at h
        | cons p t ih =>
          obtain ⟨k, u⟩ := p
          intro h
          simp only [List.lookup] at h
          cases hk : (field == k) with
          | true =>
            rw [hk] at h
            simp only [Option.some.injEq] at h
            have : field = k := by simpa using hk
            subst this; subst h
            exact List.mem_cons_self _ _
          | false =>
            rw [hk] at h
            exact List.mem_cons_of_mem _ (ih h)
      exact this weights hl
    have hr := toDouble_range w (weights_range (field, w) hmem)
    have hne : toDouble w ≠ 0 := by
      intro h0; rw [h0] at hr; norm_num at hr
    simp [hne]

theorem foldl_stepA64 (table : List (String × ℚ)) (job : Job) (answers : Answers) :
    ∀ acc : ℚ × ℚ, answers.foldl (stepA64 table job) acc =
      (contributing answers job).foldl
        (fun acc t => (addD acc.1 (mulD (factorScore64 t.2.1 t.2.2) (weightIn table t.1)),
          addD acc.2 (weightIn table t.1))) acc := by
  induction answers with
  | nil => intro acc; rfl
  | cons e t ih =>
    intro acc
    rw [List.foldl_cons, ih]
    cases hget : job.get e.1 with
    | none => simp [stepA64, contributing, hget]
    | some v => simp [stepA64, contributing, hget]

theorem foldl_pair {α : Type} (c : List α) (f g : ℚ → α → ℚ) :
    ∀ a b : ℚ, c.foldl (fun acc t => (f acc.1 t, g acc.2 t)) (a, b) =
      (c.foldl f a, c.foldl g b) := by
  induction c with
  | nil => intro a b; rfl
  | cons t c ih => intro a b; simp only [List.foldl_cons]; exact ih _ _

theorem loopA64_eq (table : List (String × ℚ)) (answers : Answers) (job : Job) :
    loopA64 table answers job =
      ((contributing answers job).foldl
          (fun sum t => addD sum (mulD (factorScore64 t.2.1 t.2.2) (weightIn table t.1))) 0,
       (contributing answers job).foldl (fun sum t => addD sum (weightIn table t.1)) 0) := by
  unfold loopA64
  rw [foldl_stepA64]
  exact foldl_pair (contributing answers job)
    (fun sum t => addD sum (mulD (factorScore64 t.2.1 t.2.2) (weightIn table t.1)))
    (fun sum t => addD sum (weightIn table t.1)) 0 0

theorem foldl_weight_ge {α : Type} (c : List α) (w : α → ℚ) (hw : ∀ t ∈ c, 1 / 2 ≤ w t) :
    ∀ acc : ℚ, (acc = 0 ∨ 1 / 2 ≤ acc) → c ≠ [] →
      1 / 2 ≤ c.foldl (fun sum t => addD sum (w t)) acc := by
  induction c with
  | nil => intro acc _ h; exact absurd rfl h
  | cons t c ih =>
    intro acc hacc _
    rw [List.foldl_cons]
    have hstep : 1 / 2 ≤ addD acc (w t) := by
      unfold addD
      have h1 : (1 : ℚ) / 2 ≤ acc + w t := by
        have := hw t (List.mem_cons_self _ _)
        rcases hacc with h | h
        · rw [h]; linarith
        · linarith
      have := toDouble_mono h1
      rwa [toDouble_half] at this
    by_cases hc : c = []
    · subst hc; simpa using hstep
    · exact ih (fun t' ht' => hw t' (List.mem_cons_of_mem _ ht')) _ (Or.inr hstep) hc

theorem finalScoreA64_eq (answers : Answers) (job : Job) :
    finalScoreA64 answers job = specScore64 specWeight64 answers job := by
  rw [specWeight64_eq]
  unfold finalScoreA64 finalScoreWith64 specScore64
  simp only
  rw [loopA64_eq]
  simp only
  by_cases hc : contributing answers job = []
  · rw [hc]; simp
  · have hpos := foldl_weight_ge (contributing answers job) (fun t => weightIn weights64 t.1)
      (fun t _ => (weightIn_weights64_range t.1).1) 0 (Or.inl rfl) hc
    rw [if_pos (by linarith), if_neg hc]

/-! ## C1: the weighted score and its exact formula -/

theorem factorScore64_eq_of_onScale (v : ℚ) (a : Int)
    (h : OnScale (("", v, a) : String × ℚ × Int)) : factorScore64 v a = factorScore v a := by
  obtain ⟨f, _, h64, hex⟩ := factorScore64_onScale v a h
  rw [h64, hex]

theorem double_eight_tenths :
    toDouble (8 / 10) = 3602879701896397 / 4503599627370496 := by
  rw [toDouble_eval (8 / 10) 7205759403792794 (-53) (by norm_num) (by norm_num) (by norm_num)
    (Or.inl (by norm_num [abs_lt]))]
  norm_num

theorem double_nine_tenths :
    toDouble (9 / 10) = 8106479329266893 / 9007199254740992 := by
  rw [toDouble_eval (9 / 10) 8106479329266893 (-53) (by norm_num) (by norm_num) (by norm_num)
    (Or.inl (by norm_num [abs_lt]))]
  norm_num

theorem double_seven_tenths :
    toDouble (7 / 10) = 3152519739159347 / 4503599627370496 := by
  rw [toDouble_eval (7 / 10) 6305039478318694 (-53) (by norm_num) (by norm_num) (by norm_num)
    (Or.inl (by norm_num [abs_lt]))]
  norm_num

theorem tie_weights :
    weightIn weights64 "teamwork_preference" = 3602879701896397 / 4503599627370496 ∧
    weightIn weights64 "remote_preference" = 8106479329266893 / 9007199254740992 ∧
    weightIn weights64 "project_type" = 3152519739159347 / 4503599627370496 := by
  have l8 : weights.lookup "teamwork_preference" = some (8 / 10) := by
    simp [weights, List.lookup]
  have l9 : weights.lookup "remote_preference" = some (9 / 10) := by
    simp [weights, List.lookup]
  have l7 : weights.lookup "project_type" = some (7 / 10) := by
    simp [weights, List.lookup]
  refine ⟨?_, ?_, ?_⟩
  · unfold weightIn weights64
    rw [lookup_map_toDouble, l8, Option.map_some', double_eight_tenths]
    norm_num
  · unfold weightIn weights64
    rw [lookup_map_toDouble, l9, Option.map_some', double_nine_tenths]
    norm_num
  · unfold weightIn weights64
    rw [lookup_map_toDouble, l7, Option.map_some', double_seven_tenths]
    norm_num

theorem tie_loop :
    loopA64 weights64 tieAnswers tieJob = (198, 1351079888211149 / 562949953421312) := by
  have hc : contributing tieAnswers tieJob =
      [("teamwork_preference", 0, 0), ("remote_preference", 0, 0), ("project_type", 6, 0)] := by
    simp [contributing, tieAnswers, tieJob, Job.get, List.lookup]
  have hf0 : factorScore64 0 0 = 100 := by
    rw [factorScore64_eq_of_onScale 0 0 ⟨⟨0, by norm_num, by norm_num, by norm_num⟩,
      by norm_num, by norm_num⟩]
    norm_num [factorScore]
  have hf6 : factorScore64 6 0 = 40 := by
    rw [factorScore64_eq_of_onScale 6 0 ⟨⟨6, by norm_num, by norm_num, by norm_num⟩,
      by norm_num, by norm_num⟩]
    norm_num [factorScore]
  obtain ⟨hw8, hw9, hw7⟩ := tie_weights
  rw [loopA64_eq, hc]
  simp only [List.foldl_cons, List.foldl_nil]
  rw [hw8, hw9, hw7, hf0, hf6]
  unfold addD mulD
  have hp1 : toDouble (100 * (3602879701896397 / 4503599627370496)) = 80 := by
    rw [toDouble_eval (100 * (3602879701896397 / 4503599627370496)) 5629499534213120 (-46)
      (by norm_num) (by norm_num) (by norm_num) (Or.inl (by norm_num [abs_lt]))]
    norm_num
  have hp2 : toDouble (100 * (8106479329266893 / 9007199254740992)) = 90 := by
    rw [toDouble_eval (100 * (8106479329266893 / 9007199254740992)) 6333186975989760 (-46)
      (by norm_num) (by norm_num) (by norm_num) (Or.inl (by norm_num [abs_lt]))]
    norm_num
  have hp3 : toDouble (40 * (3152519739159347 / 4503599627370496)) = 28 := by
    rw [toDouble_eval (40 * (3152519739159347 / 4503599627370496)) 7881299347898368 (-48)
      (by norm_num) (by norm_num) (by norm_num)
      (Or.inr ⟨by norm_num [abs_of_neg], by norm_num⟩)]
    norm_num
  have h80 : toDouble 80 = 80 := by simpa using toDouble_natCast 80 (by norm_num)
  have h170 : toDouble 170 = 170 := by simpa using toDouble_natCast 170 (by norm_num)
  have h198 : toDouble 198 = 198 := by simpa using toDouble_natCast 198 (by norm_num)
  have ht1 : toDouble (3602879701896397 / 4503599627370496) =
      3602879701896397 / 4503599627370496 :=
    toDouble_dyadic _ 3602879701896397 (-52) (by norm_num) (by norm_num) (by norm_num)
  have ht2 : toDouble (3602879701896397 / 4503599627370496 +
      8106479329266893 / 9007199254740992) = 1914029841632461 / 1125899906842624 := by
    rw [toDouble_eval (3602879701896397 / 4503599627370496 +
        8106479329266893 / 9007199254740992) 7656119366529844 (-52)
      (by norm_num) (by norm_num) (by norm_num)
      (Or.inr ⟨by norm_num [abs_of_neg], by norm_num⟩)]
    norm_num
  have ht3 : toDouble (1914029841632461 / 1125899906842624 +
      3152519739159347 / 4503599627370496) = 1351079888211149 / 562949953421312 := by
    rw [toDouble_eval (1914029841632461 / 1125899906842624 +
        3152519739159347 / 4503599627370496) 5404319552844596 (-51)
      (by norm_num) (by norm_num) (by norm_num)
      (Or.inr ⟨by norm_num [abs_of_neg], by norm_num⟩)]
    norm_num
  rw [hp1, hp2, hp3, zero_add, zero_add, h80, show (80 : ℚ) + 90 = 170 by norm_num, h170,
    show (170 : ℚ) + 28 = 198 by norm_num, h198, ht1, ht2, ht3]

theorem finalScoreA_eq_spec (answers : Answers) (job : Job) :
    finalScoreA answers job = specScore specWeight answers job := by
  rw [specWeight_eq]
  exact finalScoreWith_eq weights weights_nonneg answers job

theorem finalScoreA64_onScale (answers : Answers) (job : Job)
    (hw : ∀ t ∈ contributing answers job,
      weights.lookup t.1 = some 1 ∨ weights.lookup t.1 = none)
    (hc : ∀ t ∈ contributing answers job, OnScale t)
    (hlen : (contributing answers job).length < 2 ^ 46) :
    finalScoreA64 answers job = specScore specWeight answers job := by
  have h1 : finalScoreA64 answers job = finalScoreB64 answers job :=
    finalScoreWith64_unit weights64 answers job
      (fun t ht => weightIn_weights64_unit t.1 (hw t ht))
  have h2 : finalScoreB64 answers job = finalScoreB answers job :=
    finalScoreB64_onScale answers job hc hlen
  have h3 : finalScoreA answers job = finalScoreB answers job :=
    finalScoreWith_unit weights answers job
      (fun t ht => weightIn_of_lookup weights t.1 (hw t ht))
  rw [h1, h2, ← h3, finalScoreA_eq_spec]

theorem example_contributing :
    contributing exAnswers exJob1 =
      [("work_environment", 8, 8), ("experience_required", 5, 5)] ∧
    contributing exAnswers exJob2 =
      [("work_environment", 3, 8), ("experience_required", 5, 5)] := by
  constructor <;> simp [contributing, exAnswers, exJob1, exJob2, Job.get, List.lookup]

theorem example_exact :
    specScore specWeight exAnswers exJob1 = 100 ∧ specScore specWeight exAnswers exJob2 = 75 := by
  rw [← finalScoreA_eq_spec, ← finalScoreA_eq_spec]
  constructor
  · simp [finalScoreA, finalScoreWith, loopA, stepA, Job.get, exAnswers, exJob1,
      weights, weightIn, factorScore, mathRound, List.lookup]
    norm_num [Int.floor_eq_iff]
  · simp [finalScoreA, finalScoreWith, loopA, stepA, Job.get, exAnswers, exJob2,
      weights, weightIn, factorScore, mathRound, List.lookup]
    norm_num [Int.floor_eq_iff, abs_of_nonpos]

theorem example_unit_onScale :
    (∀ t ∈ contributing exAnswers exJob1,
      (weights.lookup t.1 = some 1 ∨ weights.lookup t.1 = none) ∧ OnScale t) ∧
    (∀ t ∈ contributing exAnswers exJob2,
      (weights.lookup t.1 = some 1 ∨ weights.lookup t.1 = none) ∧ OnScale t) := by
  rw [example_contributing.1, example_contributing.2]
  constructor
  · intro t ht
    simp only [List.mem_cons, List.mem_singleton, List.not_mem_nil, or_false] at ht
    rcases ht with rfl | rfl
    · exact ⟨Or.inl (by simp [weights, List.lookup]),
        ⟨8, by norm_num, by norm_num, by norm_num⟩, by norm_num, by norm_num⟩
    · exact ⟨Or.inl (by simp [weights, List.lookup]),
        ⟨5, by norm_num, by norm_num, by norm_num⟩, by norm_num, by norm_num⟩
  · intro t ht
    simp only [List.mem_cons, List.mem_singleton, List.not_mem_nil, or_false] at ht
    rcases ht with rfl | rfl
    · exact ⟨Or.inl (by simp [weights, List.lookup]),
        ⟨3, by norm_num, by norm_num, by norm_num⟩, by norm_num, by norm_num⟩
    · exact ⟨Or.inl (by simp [weights, List.lookup]),
        ⟨5, by norm_num, by norm_num, by norm_num⟩, by norm_num, by norm_num⟩

/-- C1 as stated fails in the engine's double arithmetic. On the answers
`{teamwork_preference: 0, remote_preference: 0, project_type: 0}` and a job
with `0`, `0` and `project_type: 6` the factor scores are `100, 100, 40` and
the weights `0.8, 0.9, 0.7`; the exact quotient is `198 / 2.4 = 82.5` and the
formula gives `83`, but the doubles sum to `2.4000000000000004`, the quotient
is `82.49999999999999`, and `Math.round` gives `82`. -/
theorem C1_counterexample :
    loopA64 weights64 tieAnswers tieJob = (198, 1351079888211149 / 562949953421312) ∧
    divD 198 (1351079888211149 / 562949953421312) = 5805421394657279 / 70368744177664 ∧
    (scoreJobA64 tieAnswers tieJob).matchScore = 82 ∧
    specScore specWeight tieAnswers tieJob = 83 ∧
    (scoreJobA64 tieAnswers tieJob).matchScore ≠ specScore specWeight tieAnswers tieJob := by
  have hq : divD 198 (1351079888211149 / 562949953421312) =
      5805421394657279 / 70368744177664 := by
    unfold divD
    rw [toDouble_eval (198 / (1351079888211149 / 562949953421312)) 5805421394657279 (-46)
      (by norm_num) (by norm_num) (by norm_num) (Or.inl (by norm_num [abs_lt]))]
    norm_num
  have h82 : (scoreJobA64 tieAnswers tieJob).matchScore = 82 := by
    show finalScoreWith64 weights64 tieAnswers tieJob = 82
    unfold finalScoreWith64
    rw [tie_loop]
    simp only
    rw [if_pos (by norm_num), hq]
    unfold mathRound
    rw [Int.floor_eq_iff]
    norm_num
  have h83 : specScore specWeight tieAnswers tieJob = 83 := by
    rw [← finalScoreA_eq_spec]
    simp [finalScoreA, finalScoreWith, loopA, stepA, Job.get, tieAnswers, tieJob,
      weights, weightIn, factorScore, mathRound, List.lookup]
    norm_num [Int.floor_eq_iff]
  refine ⟨tie_loop, hq, h82, h83, ?_⟩
  rw [h82, h83]
  norm_num

/-- C1 (amended): in variant A the `matchScore` attached to a job is `0` when
no field of the answer set is defined on the job, and otherwise `Math.round`
of the quotient of the weighted sum of the factor scores by the sum of the
weights, all computed in double arithmetic over the contributing fields in
answer order, the weights being the doubles nearest the table's decimals
(`1.0` for a field that is not in the table); every job left in `matchedJobs`
carries that score. When every contributing field has weight `1.0` or is not
in the table and answers and job values are integers in `0..10` (fewer than
`2 ^ 46` fields), this is the round-half-up of the exact weighted mean; the
example of the specification scores `100` and `75`. -/
theorem C1_matchScore_double :
    (∀ (answers : Answers) (job : Job),
      (scoreJobA64 answers job).matchScore = specScore64 specWeight64 answers job) ∧
    (∀ (s : State) (sj : ScoredJob), sj ∈ (calculateMatchesA64 s).matchedJobs →
      sj.job ∈ s.jobs ∧ sj.matchScore = specScore64 specWeight64 s.answers sj.job) ∧
    (∀ (answers : Answers) (job : Job), (∀ e ∈ answers, job.get e.1 = none) →
      (scoreJobA64 answers job).matchScore = 0) ∧
    (∀ (answers : Answers) (job : Job),
      (∀ t ∈ contributing answers job,
        (weights.lookup t.1 = some 1 ∨ weights.lookup t.1 = none) ∧ OnScale t) →
      (contributing answers job).length < 2 ^ 46 →
      (scoreJobA64 answers job).matchScore = specScore specWeight answers job) ∧
    (scoreJobA64 exAnswers exJob1).matchScore = 100 ∧
    (scoreJobA64 exAnswers exJob2).matchScore = 75 := by
  have key : ∀ (answers : Answers) (job : Job),
      (scoreJobA64 answers job).matchScore = specScore64 specWeight64 answers job :=
    finalScoreA64_eq
  have onScale : ∀ (answers : Answers) (job : Job),
      (∀ t ∈ contributing answers job,
        (weights.lookup t.1 = some 1 ∨ weights.lookup t.1 = none) ∧ OnScale t) →
      (contributing answers job).length < 2 ^ 46 →
      (scoreJobA64 answers job).matchScore = specScore specWeight answers job := by
    intro answers job h hlen
    exact finalScoreA64_onScale answers job (fun t ht => (h t ht).1) (fun t ht => (h t ht).2)
      hlen
  refine ⟨key, ?_, ?_, onScale, ?_, ?_⟩
  · intro s sj hsj
    obtain ⟨job, hjob, rfl⟩ := mem_rankJobs _ _ _ _ hsj
    exact ⟨hjob, key s.answers job⟩
  · intro answers job h
    rw [key]
    unfold specScore64
    simp [contributing_eq_nil answers job h]
  · rw [onScale exAnswers exJob1 example_unit_onScale.1
      (by rw [example_contributing.1]; norm_num), example_exact.1]
  · rw [onScale exAnswers exJob2 example_unit_onScale.2
      (by rw [example_contributing.2]; norm_num), example_exact.2]

/-- C1 (amended) at the specification's example, answers and job 2: both
contributing fields have weight `1.0` and all values are on the scale, and
the double score is the exact formula's `75`. -/
theorem C1_matchScore_double_witness :
    (∀ t ∈ contributing exAnswers exJob2,
      (weights.lookup t.1 = some 1 ∨ weights.lookup t.1 = none) ∧ OnScale t) ∧
    (contributing exAnswers exJob2).length < 2 ^ 46 ∧
    (scoreJobA64 exAnswers exJob2).matchScore = specScore specWeight exAnswers exJob2 ∧
    specScore specWeight exAnswers exJob2 = 75 := by
  have hlen : (contributing exAnswers exJob2).length < 2 ^ 46 := by
    rw [example_contributing.2]; norm_num
  exact ⟨example_unit_onScale.2, hlen,
    C1_matchScore_double.2.2.2.1 exAnswers exJob2 example_unit_onScale.2 hlen,
    example_exact.2⟩

/-! ## C8: one answered field -/

theorem weightIn_weights64_double (field : String) :
    toDouble (weightIn weights64 field) = weightIn weights64 field := by
  rw [← specWeight64_eq]
  unfold specWeight64
  exact toDouble_idem _

theorem finalScoreA64_single (field : String) (a : Int) (job : Job) (v : ℚ)
    (h : job.get field = some v) :
    finalScoreA64 [(field, a)] job =
      mathRound (toDouble (toDouble (factorScore64 v a * weightIn weights64 field) /
        weightIn weights64 field)) := by
  have hw := (weightIn_weights64_range field).1
  unfold finalScoreA64 finalScoreWith64 loopA64
  simp only [List.foldl_cons, List.foldl_nil, stepA64, h]
  unfold addD mulD divD
  rw [zero_add, zero_add, toDouble_idem, weightIn_weights64_double, if_pos (by linarith)]

theorem finalScoreB64_single (field : String) (a : Int) (job : Job) (v : ℚ)
    (h : job.get field = some v) :
    finalScoreB64 [(field, a)] job = mathRound (factorScore64 v a) := by
  unfold finalScoreB64 loopB64
  simp only [List.foldl_cons, List.foldl_nil, stepB64, h]
  unfold addD divD
  rw [zero_add, zero_add, toDouble_one, if_pos (by norm_num), div_one,
    toDouble_factorScore64, toDouble_factorScore64]

theorem factorScore64_antitone (v1 v2 : ℚ) (a : Int)
    (h : |v1 - (a : ℚ)| ≤ |v2 - (a : ℚ)|) : factorScore64 v2 a ≤ factorScore64 v1 a := by
  unfold factorScore64 subD mulD
  rw [abs_toDouble, abs_toDouble]
  apply toDouble_mono
  have h1 : toDouble |v1 - (a : ℚ)| ≤ toDouble |v2 - (a : ℚ)| := toDouble_mono h
  have h2 : toDouble (toDouble |v1 - (a : ℚ)| * 10) ≤ toDouble (toDouble |v2 - (a : ℚ)| * 10) :=
    toDouble_mono (by linarith)
  linarith

theorem single_score_mono (w f1 f2 : ℚ) (hw : 0 < w) (h : f2 ≤ f1) :
    mathRound (toDouble (toDouble (f2 * w) / w)) ≤
      mathRound (toDouble (toDouble (f1 * w) / w)) := by
  apply mathRound_mono
  apply toDouble_mono
  apply div_le_div_of_nonneg_right _ hw.le
  apply toDouble_mono
  exact mul_le_mul_of_nonneg_right h hw.le

/-- A whole factor score survives the weighting: multiplying by a weight in
`[1/2, 1]` and dividing by it again, in doubles, moves it by far less than a
half. -/
theorem single_score_whole (w : ℚ) (f : ℕ) (hw : 1 / 2 ≤ w ∧ w ≤ 1) (hf : f ≤ 100) :
    mathRound (toDouble (toDouble ((f : ℚ) * w) / w)) = f := by
  have hwpos : (0 : ℚ) < w := by linarith [hw.1]
  have hfq : (f : ℚ) ≤ 100 := by exact_mod_cast hf
  have hf0 : (0 : ℚ) ≤ (f : ℚ) := by positivity
  have hprod0 : 0 ≤ (f : ℚ) * w := mul_nonneg hf0 hwpos.le
  have hprod : (f : ℚ) * w ≤ 100 := by nlinarith [hw.2]
  have e1 := toDouble_err_small ((f : ℚ) * w) (by rw [abs_of_nonneg hprod0]; linarith)
  generalize hp : toDouble ((f : ℚ) * w) = p at e1
  rw [abs_le] at e1
  have hε : (2 : ℚ) ^ (-47 : ℤ) = 1 / 140737488355328 := by norm_num
  rw [hε] at e1
  -- the quotient is within `2 ^ (-46)` of `f`
  have hq1 : (f : ℚ) - 1 / 70368744177664 ≤ p / w := by
    rw [le_div_iff₀ hwpos]
    nlinarith [e1.1, hw.1, hw.2]
  have hq2 : p / w ≤ (f : ℚ) + 1 / 70368744177664 := by
    rw [div_le_iff₀ hwpos]
    nlinarith [e1.2, hw.1, hw.2]
  have e2 := toDouble_err_small (p / w) (by rw [abs_lt]; constructor <;> linarith)
  rw [abs_le, hε] at e2
  unfold mathRound
  rw [Int.floor_eq_iff]
  push_cast
  constructor <;> linarith [e2.1, e2.2]

theorem factorScore64_near :
    factorScore64 5 5 = 100 ∧ factorScore64 (161 / 32) 5 = 1595 / 16 := by
  constructor
  · rw [factorScore64_eq_of_onScale 5 5 ⟨⟨5, by norm_num, by norm_num, by norm_num⟩,
      by norm_num, by norm_num⟩]
    norm_num [factorScore]
  · unfold factorScore64 subD mulD
    rw [show (161 : ℚ) / 32 - ((5 : Int) : ℚ) = 1 / 32 by norm_num,
      toDouble_dyadic (1 / 32) 1 (-5) (by norm_num) (by norm_num) (by norm_num),
      abs_of_pos (by norm_num), show (1 : ℚ) / 32 * 10 = 5 / 16 by norm_num,
      toDouble_dyadic (5 / 16) 5 (-4) (by norm_num) (by norm_num) (by norm_num),
      show (100 : ℚ) - 5 / 16 = 1595 / 16 by norm_num,
      toDouble_dyadic (1595 / 16) 1595 (-4) (by norm_num) (by norm_num) (by norm_num)]

/-- C8 as stated fails for attribute values less than a tenth apart: on the
answer set `{ work_environment: 5 }` the job at `5` and the job at `5.03125`
both score `100` in both variants (the factor score `99.6875` rounds to
`100`), although the first is strictly nearer. Every number here is a double
and every operation exact. -/
theorem C8_counterexample :
    nearJob1.get "work_environment" = some 5 ∧
    nearJob2.get "work_environment" = some (161 / 32) ∧
    |(5 : ℚ) - ((5 : Int) : ℚ)| < |(161 / 32 : ℚ) - ((5 : Int) : ℚ)| ∧
    (scoreJobA64 nearAnswers nearJob1).matchScore = 100 ∧
    (scoreJobA64 nearAnswers nearJob2).matchScore = 100 ∧
    (scoreJobB64 nearAnswers nearJob1).matchScore = 100 ∧
    (scoreJobB64 nearAnswers nearJob2).matchScore = 100 ∧
    ¬ (scoreJobA64 nearAnswers nearJob2).matchScore <
        (scoreJobA64 nearAnswers nearJob1).matchScore ∧
    ¬ (scoreJobB64 nearAnswers nearJob2).matchScore <
        (scoreJobB64 nearAnswers nearJob1).matchScore := by
  have g1 : nearJob1.get "work_environment" = some 5 := by
    simp [Job.get, nearJob1, List.lookup]
  have g2 : nearJob2.get "work_environment" = some (161 / 32) := by
    simp [Job.get, nearJob2, List.lookup]
  have hw : weightIn weights64 "work_environment" = 1 :=
    weightIn_weights64_unit _ (Or.inl (by simp [weights, List.lookup]))
  have r1 : mathRound (100 : ℚ) = 100 := by
    unfold mathRound; rw [Int.floor_eq_iff]; norm_num
  have r2 : mathRound (1595 / 16 : ℚ) = 100 := by
    unfold mathRound; rw [Int.floor_eq_iff]; norm_num
  have d1 : toDouble (100 : ℚ) = 100 := by simpa using toDouble_natCast 100 (by norm_num)
  have d2 : toDouble (1595 / 16 : ℚ) = 1595 / 16 :=
    toDouble_dyadic _ 1595 (-4) (by norm_num) (by norm_num) (by norm_num)
  have a1 : (scoreJobA64 nearAnswers nearJob1).matchScore = 100 := by
    show finalScoreA64 [("work_environment", 5)] nearJob1 = 100
    rw [finalScoreA64_single _ _ _ _ g1, hw, factorScore64_near.1, mul_one, div_one, d1, d1, r1]
  have a2 : (scoreJobA64 nearAnswers nearJob2).matchScore = 100 := by
    show finalScoreA64 [("work_environment", 5)] nearJob2 = 100
    rw [finalScoreA64_single _ _ _ _ g2, hw, factorScore64_near.2, mul_one, div_one, d2, d2, r2]
  have b1 : (scoreJobB64 nearAnswers nearJob1).matchScore = 100 := by
    show finalScoreB64 [("work_environment", 5)] nearJob1 = 100
    rw [finalScoreB64_single _ _ _ _ g1, factorScore64_near.1, r1]
  have b2 : (scoreJobB64 nearAnswers nearJob2).matchScore = 100 := by
    show finalScoreB64 [("work_environment", 5)] nearJob2 = 100
    rw [finalScoreB64_single _ _ _ _ g2, factorScore64_near.2, r2]
  refine ⟨g1, g2, ?_, a1, a2, b1, b2, ?_, ?_⟩
  · norm_num [abs_of_nonneg]
  · rw [a1, a2]; exact lt_irrefl _
  · rw [b1, b2]; exact lt_irrefl _

/-- C8 (amended): for a single-field answer set `{f: a}` and two jobs that
define `f` with `|j1[f] - a| < |j2[f] - a|`, the score of `j1` is at least the
score of `j2` in both variants, computed in double arithmetic; it is strictly
greater when the answer and both job values are integers in `0..10`. -/
theorem C8_single_field_monotone (field : String) (a : Int) (j1 j2 : Job) (v1 v2 : ℚ)
    (h1 : j1.get field = some v1) (h2 : j2.get field = some v2)
    (hlt : |v1 - (a : ℚ)| < |v2 - (a : ℚ)|) :
    ((scoreJobA64 [(field, a)] j2).matchScore ≤ (scoreJobA64 [(field, a)] j1).matchScore ∧
      (scoreJobB64 [(field, a)] j2).matchScore ≤ (scoreJobB64 [(field, a)] j1).matchScore) ∧
    (OnScale (field, v1, a) ∧ OnScale (field, v2, a) →
      (scoreJobA64 [(field, a)] j2).matchScore < (scoreJobA64 [(field, a)] j1).matchScore ∧
      (scoreJobB64 [(field, a)] j2).matchScore < (scoreJobB64 [(field, a)] j1).matchScore) := by
  have eA1 : (scoreJobA64 [(field, a)] j1).matchScore = _ := finalScoreA64_single field a j1 v1 h1
  have eA2 : (scoreJobA64 [(field, a)] j2).matchScore = _ := finalScoreA64_single field a j2 v2 h2
  have eB1 : (scoreJobB64 [(field, a)] j1).matchScore = _ := finalScoreB64_single field a j1 v1 h1
  have eB2 : (scoreJobB64 [(field, a)] j2).matchScore = _ := finalScoreB64_single field a j2 v2 h2
  rw [eA1, eA2, eB1, eB2]
  have hw := weightIn_weights64_range field
  have hwpos : (0 : ℚ) < weightIn weights64 field := by linarith [hw.1]
  have hF := factorScore64_antitone v1 v2 a hlt.le
  refine ⟨⟨single_score_mono _ _ _ hwpos hF, mathRound_mono hF⟩, ?_⟩
  rintro ⟨s1, s2⟩
  obtain ⟨f1, hf1, e1, x1⟩ := factorScore64_onScale v1 a s1
  obtain ⟨f2, hf2, e2, x2⟩ := factorScore64_onScale v2 a s2
  have hlt12 : f2 < f1 := by
    have : (f2 : ℚ) < (f1 : ℚ) := by
      rw [← x1, ← x2]
      unfold factorScore
      linarith
    exact_mod_cast this
  rw [e1, e2, single_score_whole _ f1 hw hf1, single_score_whole _ f2 hw hf2]
  have r1 : mathRound ((f1 : ℕ) : ℚ) = (f1 : ℤ) := by
    have := mathRound_intCast (f1 : ℤ)
    simpa using this
  have r2 : mathRound ((f2 : ℕ) : ℚ) = (f2 : ℤ) := by
    have := mathRound_intCast (f2 : ℤ)
    simpa using this
  rw [r1, r2]
  exact ⟨by exact_mod_cast hlt12, by exact_mod_cast hlt12⟩

/-- C8 (amended) on the weighted field `company_size`: answer `8`, one job at
`7` and one at `3`. -/
theorem C8_single_field_monotone_witness :
    sizeJob1.get "company_size" = some 7 ∧ sizeJob2.get "company_size" = some 3 ∧
    |(7 : ℚ) - ((8 : Int) : ℚ)| < |(3 : ℚ) - ((8 : Int) : ℚ)| ∧
    (scoreJobA64 sizeAnswers sizeJob2).matchScore <
      (scoreJobA64 sizeAnswers sizeJob1).matchScore ∧
    (scoreJobB64 sizeAnswers sizeJob2).matchScore <
      (scoreJobB64 sizeAnswers sizeJob1).matchScore := by
  have g1 : sizeJob1.get "company_size" = some 7 := by simp [Job.get, sizeJob1, List.lookup]
  have g2 : sizeJob2.get "company_size" = some 3 := by simp [Job.get, sizeJob2, List.lookup]
  have hlt : |(7 : ℚ) - ((8 : Int) : ℚ)| < |(3 : ℚ) - ((8 : Int) : ℚ)| := by
    norm_num [abs_of_nonpos]
  have s1 : OnScale (("company_size", 7, 8) : String × ℚ × Int) :=
    ⟨⟨7, by norm_num, by norm_num, by norm_num⟩, by norm_num, by norm_num⟩
  have s2 : OnScale (("company_size", 3, 8) : String × ℚ × Int) :=
    ⟨⟨3, by norm_num, by norm_num, by norm_num⟩, by norm_num, by norm_num⟩
  exact ⟨g1, g2, hlt,
    (C8_single_field_monotone "company_size" 8 sizeJob1 sizeJob2 7 3 g1 g2 hlt).2 ⟨s1, s2⟩⟩

/-! ## C10: variant B is variant A with every weight `1` -/

theorem factorScore64_twentieth :
    factorScore64 (3602879701896397 / 72057594037927936) 0 = 199 / 2 := by
  have hv : toDouble (3602879701896397 / 72057594037927936) =
      3602879701896397 / 72057594037927936 :=
    toDouble_dyadic _ 3602879701896397 (-56) (by norm_num) (by norm_num) (by norm_num)
  have ht : toDouble (3602879701896397 / 72057594037927936 * 10) = 1 / 2 := by
    rw [toDouble_eval (3602879701896397 / 72057594037927936 * 10) 4503599627370496 (-53)
      (by norm_num) (by norm_num) (by norm_num) (Or.inl (by norm_num [abs_lt]))]
    norm_num
  have hs : toDouble (199 / 2) = 199 / 2 :=
    toDouble_dyadic _ 199 (-1) (by norm_num) (by norm_num) (by norm_num)
  unfold factorScore64 subD mulD
  rw [show (3602879701896397 : ℚ) / 72057594037927936 - ((0 : Int) : ℚ) =
      3602879701896397 / 72057594037927936 by norm_num, hv, abs_of_pos (by norm_num), ht,
    show (100 : ℚ) - 1 / 2 = 199 / 2 by norm_num, hs]

/-- C10 as stated fails in the engine's double arithmetic. With the answer
`0` and the job value `0.05` (the double nearest to it) the product by `10`
rounds to `0.5`, the factor score is `99.5` and variant B scores `100`, while
the plain mean of the exact factor score, just below `99.5`, rounds to `99`. -/
theorem C10_counterexample :
    toDouble (3602879701896397 / 72057594037927936) =
      3602879701896397 / 72057594037927936 ∧
    twentiethJob.get "work_environment" = some (3602879701896397 / 72057594037927936) ∧
    factorScore64 (3602879701896397 / 72057594037927936) 0 = 199 / 2 ∧
    (scoreJobB64 zeroAnswers twentiethJob).matchScore = 100 ∧
    specMean zeroAnswers twentiethJob = 99 ∧
    (scoreJobB64 zeroAnswers twentiethJob).matchScore ≠ specMean zeroAnswers twentiethJob := by
  have hv : toDouble (3602879701896397 / 72057594037927936) =
      3602879701896397 / 72057594037927936 :=
    toDouble_dyadic _ 3602879701896397 (-56) (by norm_num) (by norm_num) (by norm_num)
  have g : twentiethJob.get "work_environment" =
      some (3602879701896397 / 72057594037927936) := by
    simp [Job.get, twentiethJob, List.lookup]
  have b : (scoreJobB64 zeroAnswers twentiethJob).matchScore = 100 := by
    show finalScoreB64 [("work_environment", 0)] twentiethJob = 100
    rw [finalScoreB64_single _ _ _ _ g, factorScore64_twentieth]
    unfold mathRound
    rw [Int.floor_eq_iff]
    norm_num
  have m : specMean zeroAnswers twentiethJob = 99 := by
    have hc : contributing zeroAnswers twentiethJob =
        [("work_environment", 3602879701896397 / 72057594037927936, 0)] := by
      simp [contributing, zeroAnswers, g]
    unfold specMean
    simp only [hc]
    rw [if_neg (by simp), Int.floor_eq_iff]
    norm_num [abs_of_pos]
  refine ⟨hv, g, factorScore64_twentieth, b, m, ?_⟩
  rw [b, m]
  norm_num

/-- C10 (amended): in double arithmetic the score of variant B is the score
variant A's weighted loop computes with an empty weight table (every weight
`1.0`), so variants A and B give the same score whenever every contributing
field has weight `1.0` in A's table or is absent from it. When answers and
job values are integers in `0..10` (fewer than `2 ^ 46` fields) that score is
the plain mean of the factor scores rounded half up, `0` when no field
contributes. -/
theorem C10_unweighted_special_case (answers : Answers) (job : Job) :
    (scoreJobB64 answers job).matchScore = finalScoreWith64 [] answers job ∧
    ((∀ t ∈ contributing answers job,
        weights.lookup t.1 = some 1 ∨ weights.lookup t.1 = none) →
      (scoreJobA64 answers job).matchScore = (scoreJobB64 answers job).matchScore) ∧
    ((∀ t ∈ contributing answers job, OnScale t) →
      (contributing answers job).length < 2 ^ 46 →
      (scoreJobB64 answers job).matchScore = specMean answers job) := by
  refine ⟨?_, ?_, ?_⟩
  · exact (finalScoreWith64_unit [] answers job (fun t _ => weightIn_nil t.1)).symm
  · intro h
    exact finalScoreWith64_unit weights64 answers job
      (fun t ht => weightIn_weights64_unit t.1 (h t ht))
  · intro hc hlen
    show finalScoreB64 answers job = specMean answers job
    rw [finalScoreB64_onScale answers job hc hlen, finalScoreB_eq]

/-- C10 (amended) at the specification's example, answers and job 2: both
contributing fields have weight `1.0` and are on the scale; both variants
score `75`, the rounded plain mean. -/
theorem C10_unweighted_special_case_witness :
    (∀ t ∈ contributing exAnswers exJob2,
      weights.lookup t.1 = some 1 ∨ weights.lookup t.1 = none) ∧
    (∀ t ∈ contributing exAnswers exJob2, OnScale t) ∧
    (contributing exAnswers exJob2).length < 2 ^ 46 ∧
    (scoreJobA64 exAnswers exJob2).matchScore = (scoreJobB64 exAnswers exJob2).matchScore ∧
    (scoreJobB64 exAnswers exJob2).matchScore = specMean exAnswers exJob2 := by
  have hw : ∀ t ∈ contributing exAnswers exJob2,
      weights.lookup t.1 = some 1 ∨ weights.lookup t.1 = none :=
    fun t ht => (example_unit_onScale.2 t ht).1
  have hc : ∀ t ∈ contributing exAnswers exJob2, OnScale t :=
    fun t ht => (example_unit_onScale.2 t ht).2
  have hlen : (contributing exAnswers exJob2).length < 2 ^ 46 := by
    rw [example_contributing.2]; norm_num
  exact ⟨hw, hc, hlen, (C10_unweighted_special_case exAnswers exJob2).2.1 hw,
    (C10_unweighted_special_case exAnswers exJob2).2.2 hc hlen⟩

/-! ## The ranking of the double scores -/

/-- The ranking lemmas do not look at how a score was computed, so the list
`calculateMatches` builds from the double scores is ordered, capped and
stable as well, and the catalog is left alone. -/
theorem calculateMatches64_ranking (s : State) :
    ((calculateMatchesA64 s).matchedJobs.Pairwise (fun a b => b.matchScore ≤ a.matchScore) ∧
      (calculateMatchesA64 s).matchedJobs.length = min 10 s.jobs.length ∧
      (calculateMatchesA64 s).jobs = s.jobs ∧
      ∀ v : Int, List.IsPrefix
        ((calculateMatchesA64 s).matchedJobs.filter (fun x => decide (x.matchScore = v)))
        ((s.jobs.map (scoreJobA64 s.answers)).filter (fun x => decide (x.matchScore = v)))) ∧
    ((calculateMatchesB64 s).matchedJobs.Pairwise (fun a b => b.matchScore ≤ a.matchScore) ∧
      (calculateMatchesB64 s).matchedJobs.length = min 5 s.jobs.length ∧
      (calculateMatchesB64 s).jobs = s.jobs ∧
      ∀ v : Int, List.IsPrefix
        ((calculateMatchesB64 s).matchedJobs.filter (fun x => decide (x.matchScore = v)))
        ((s.jobs.map (scoreJobB64 s.answers)).filter (fun x => decide (x.matchScore = v)))) :=
  ⟨⟨(rankJobs_topN (scoreJobA64 s.answers) topNA s.jobs).1,
      rankJobs_length (scoreJobA64 s.answers) topNA s.jobs, rfl,
      rankJobs_stable (scoreJobA64 s.answers) topNA s.jobs⟩,
    ⟨(rankJobs_topN (scoreJobB64 s.answers) topNB s.jobs).1,
      rankJobs_length (scoreJobB64 s.answers) topNB s.jobs, rfl,
      rankJobs_stable (scoreJobB64 s.answers) topNB s.jobs⟩⟩

end CareerQuest
